import Mathlib

/-!
Verification of the decoding core of `MLM_decoding` against its specification.

The embedding follows `src/decode.py` (the ranked enumerator `enumerate_samples`,
the per-sample scorer `get_log_prob`, and the union-sampling candidate gathering
of `decode`) and `src/blending_model/optim/create_blending_data.py`
(`get_weight_data`, in particular its `gt_only` branch and its beam pruning call).
Probabilities and log-probabilities are exact reals; numpy arrays are lists;
the generator is modelled as the (finite) list of its yields.
-/

namespace MLM

/-! ## Numpy / Python primitives -/

/-- Elementwise numpy `==` between two 1-D arrays of the same length, as it is
invoked by Python list containment in `decode.py` line 96. -/
noncomputable def npEq (xs ys : List ℝ) : List Bool :=
  List.zipWith (fun a b => decide (a = b)) xs ys

/-- The truth value numpy assigns to a bool array (`bool(arr)`): defined for
one-element arrays, `False` for empty arrays (legacy behaviour), and a
`ValueError` for arrays with more than one element. -/
def npTruth (xs : List Bool) : Except String Bool :=
  if xs.length = 1 then .ok (xs.getD 0 false)
  else if xs.length = 0 then .ok false
  else .error "ValueError: the truth value of an array with more than one element is ambiguous"

/-- Python `x in l` where `l` is a list of numpy arrays: each containment test
evaluates the truth value of the elementwise comparison `item == x`, so it
raises whenever a compared array has length at least 2.  (The identity
shortcut of `PyObject_RichCompareBool` never fires in `decode`, where the
candidate row is a freshly allocated array.) -/
noncomputable def pyIn (x : List ℝ) : List (List ℝ) → Except String Bool
  | [] => .ok false
  | y :: ys => do
      let b ← npTruth (npEq y x)
      if b then pure true else pyIn x ys

/-- Numpy 1-D `+` with broadcasting: equal lengths add elementwise, a length-1
operand is broadcast, and any other length disagreement is a shape-mismatch
`ValueError`. -/
def npAdd (xs ys : List ℝ) : Except String (List ℝ) :=
  if xs.length = ys.length then .ok (List.zipWith (fun a b => a + b) xs ys)
  else if xs.length = 1 then .ok (ys.map (fun b => xs.getD 0 0 + b))
  else if ys.length = 1 then .ok (xs.map (fun a => a + ys.getD 0 0))
  else .error "ValueError: operands could not be broadcast together"

/-- `np.setxor1d`: the indices occurring in exactly one of the two index sets. -/
def npSetXor (s t : Finset ℕ) : Finset ℕ := (s ∪ t) \ (s ∩ t)

/-- Numpy fancy indexing `R[v]` for an index array `R` and a set `v` of
positions into it. -/
def idxImage (R : List ℕ) (v : Finset ℕ) : Finset ℕ := v.image (fun j => R.getD j 0)

/-- `binary_sample = np.zeros(P); binary_sample[sample] = 1`
(`decode.py` lines 75-76 / 92-93, with `P = 88` at the call sites). -/
def binarize (P : ℕ) (s : Finset ℕ) : List ℝ :=
  (List.range P).map (fun i => if i ∈ s then (1 : ℝ) else 0)

/-! ## `decode.py`: combined probabilities and `get_log_prob` -/

/-- `p = weight[0]*acoustic + weight[1]*language` (`decode.py` lines 145/181;
`np.squeeze` is the identity on the 1-D arrays used there). -/
def combinedP (w : ℝ × ℝ) (acoustic language : List ℝ) : List ℝ :=
  List.zipWith (fun a b => w.1 * a + w.2 * b) acoustic language

/-- `not_p = weight[0]*(1-acoustic) + weight[1]*(1-language)`
(`decode.py` lines 146/182). -/
def combinedNotP (w : ℝ × ℝ) (acoustic language : List ℝ) : List ℝ :=
  List.zipWith (fun a b => w.1 * (1 - a) + w.2 * (1 - b)) acoustic language

/-- `weight[0]*acoustic + weight[1]*language` with numpy shape semantics:
the scalar multiplications always succeed, the `+` broadcasts or raises. -/
def combinedP_np (w : ℝ × ℝ) (acoustic language : List ℝ) : Except String (List ℝ) :=
  npAdd (acoustic.map (fun a => w.1 * a)) (language.map (fun b => w.2 * b))

/-- `weight[0]*(1-acoustic) + weight[1]*(1-language)` with numpy shape
semantics. -/
def combinedNotP_np (w : ℝ × ℝ) (acoustic language : List ℝ) : Except String (List ℝ) :=
  npAdd (acoustic.map (fun a => w.1 * (1 - a))) (language.map (fun b => w.2 * (1 - b)))

open Classical in
/-- `get_log_prob` (`decode.py` lines 118-148):
`np.sum(np.where(sample == 1, np.log(p), np.log(not_p)))`. -/
noncomputable def get_log_prob (sample acoustic language : List ℝ) (w : ℝ × ℝ) : ℝ :=
  let p := combinedP w acoustic language
  let not_p := combinedNotP w acoustic language
  ∑ i in Finset.range sample.length,
    if sample.getD i 0 = 1 then Real.log (p.getD i 0) else Real.log (not_p.getD i 0)

/-! ## `decode.py`: the ranked enumerator `enumerate_samples` -/

open Classical in
/-- `R = L.argsort()` (`decode.py` line 191): a permutation of the index range
arranging the penalties in ascending order (modelled by a stable sort of the
indices keyed by the penalty). -/
noncomputable def argsort (L : List ℝ) : List ℕ :=
  List.insertionSort (fun i j => L.getD i 0 ≤ L.getD j 0) (List.range L.length)

/-- An entry of the priority queue of `enumerate_samples`: the accumulated flip
penalty `l`, the tie-breaking counter `num`, and the set `v` of positions (into
the sorted penalty array) already flipped. -/
structure Entry where
  l : ℝ
  num : ℕ
  v : Finset ℕ

/-- The lexicographic order on `(l, num)` used by Python's `PriorityQueue` on
the tuples `(l, num, v)`; the array `v` is never compared because the counters
are pairwise distinct. -/
def entryLE (a b : Entry) : Prop := a.l < b.l ∨ (a.l = b.l ∧ a.num ≤ b.num)

open Classical in
/-- `q.get()`: remove a minimal entry (by `entryLE`) from the queue. -/
noncomputable def popMin : List Entry → Option (Entry × List Entry)
  | [] => none
  | e :: es =>
    match popMin es with
    | none => some (e, es)
    | some (m, rest) => if entryLE e m then some (e, es) else some (m, e :: rest)

open Classical in
/-- The `while not q.empty()` loop of `enumerate_samples`
(`decode.py` lines 199-207), with explicit fuel: pop a minimal entry, yield its
`(l, v)`, and, when `i+1 < len(L_sorted)` for `i = np.max(v)`, push the two
successor entries with penalties `l + L_sorted[i+1]` and
`l + L_sorted[i+1] - L_sorted[i]` and fresh counters.  The loop of the source
runs until the queue is empty; `drainF_complete` below shows fuel `3 ^ P`
suffices for that. -/
noncomputable def drainF (Ls : List ℝ) : ℕ → ℕ → List Entry → List (ℝ × Finset ℕ)
  | 0, _, _ => []
  | fuel + 1, num, q =>
    match popMin q with
    | none => []
    | some (e, q') =>
      let i := e.v.sup id
      if i + 1 < Ls.length then
        (e.l, e.v) ::
          drainF Ls fuel (num + 2)
            (q' ++ [⟨e.l + Ls.getD (i + 1) 0, num, insert (i + 1) e.v⟩,
                    ⟨e.l + Ls.getD (i + 1) 0 - Ls.getD i 0, num + 1,
                     npSetXor (insert (i + 1) e.v) {i}⟩])
      else
        (e.l, e.v) :: drainF Ls fuel num q'

open Classical in
/-- `v_0 = np.where(p > not_p)[0]` (`decode.py` line 185): the set of indices
with `p_i > not_p_i`. -/
noncomputable def greedyV (p not_p : List ℝ) : Finset ℕ :=
  (Finset.range p.length).filter (fun i => not_p.getD i 0 < p.getD i 0)

/-- `l_0 = np.sum(np.log(np.maximum(p, not_p)))` (`decode.py` line 186). -/
noncomputable def greedyL (p not_p : List ℝ) : ℝ :=
  ∑ i in Finset.range p.length, Real.log (max (p.getD i 0) (not_p.getD i 0))

/-- `L = np.abs(np.log(p / not_p))` (`decode.py` line 190). -/
noncomputable def penalties (p not_p : List ℝ) : List ℝ :=
  List.zipWith (fun a b => |Real.log (a / b)|) p not_p

/-- `L_sorted = L[R]` for `R = L.argsort()` (`decode.py` lines 191-192). -/
noncomputable def sortedPen (p not_p : List ℝ) : List ℝ :=
  (argsort (penalties p not_p)).map (fun j => (penalties p not_p).getD j 0)

/-- The body of `enumerate_samples` (`decode.py` lines 180-207) for given
combined probability vectors `p`, `not_p`: the greedy head `(l_0, v_0)`,
followed by the queue-driven yields `(l_0 - l, setxor1d(v_0, R[v]))` of the
loop, seeded with `(L_sorted[0], 0, [0])`. -/
noncomputable def enumFromP (p not_p : List ℝ) : List (ℝ × Finset ℕ) :=
  (greedyL p not_p, greedyV p not_p) ::
    (drainF (sortedPen p not_p) (3 ^ p.length) 1
        [⟨(sortedPen p not_p).getD 0 0, 0, {0}⟩]).map
      (fun y => (greedyL p not_p - y.1,
        npSetXor (greedyV p not_p) (idxImage (argsort (penalties p not_p)) y.2)))

/-- `enumerate_samples(acoustic, language, weight)` (`decode.py` lines 153-207),
as the list of all pairs the generator yields when fully drained. -/
noncomputable def enumerate_samples (acoustic language : List ℝ) (w : ℝ × ℝ) :
    List (ℝ × Finset ℕ) :=
  enumFromP (combinedP w acoustic language) (combinedNotP w acoustic language)

/-- `enumerate_samples` with numpy shape semantics for the two mixtures on
lines 181-182; every later step combines `p` and `not_p` elementwise. -/
noncomputable def enumerate_samples_np (acoustic language : List ℝ) (w : ℝ × ℝ) :
    Except String (List (ℝ × Finset ℕ)) := do
  let p ← combinedP_np w acoustic language
  let not_p ← combinedNotP_np w acoustic language
  pure (enumFromP p not_p)

/-! ## `decode.py`: the decode loop (union sampling, pruning) -/

/-- `decode.py` lines 56-57: on entry, union sampling halves the branch factor
(`int(branch_factor / 2)`). -/
def unionBranchFactor (sampling_method : String) (branch_factor : ℕ) : ℕ :=
  if sampling_method = "union" then branch_factor / 2 else branch_factor

/-- The skip condition of `decode.py` line 96 in union mode:
`not (binary_sample in unique_samples)`, with Python's raising membership
test on numpy arrays. -/
noncomputable def unionSkipGuard (binary_sample : List ℝ) (unique_samples : List (List ℝ)) :
    Except String Bool := do
  let dup ← pyIn binary_sample unique_samples
  pure (!dup)

/-- One frame of candidate gathering in union mode (`decode.py` lines 62-99):
the shared acoustic-only pool (weight `(1,0)`, drawn from the first state's
prior) is appended once per state; then every state draws a language-only pool
(weight `(0,1)`) whose rows are skipped when the Python membership test says
they already occur in the shared pool.  States are identified by their index
into the list of priors; rows are 88-long binary arrays as in the source. -/
noncomputable def unionFrameCandidates (frame : List ℝ) (priors : List (List ℝ))
    (branch_factor : ℕ) : Except String (List (ℕ × List ℝ)) := do
  let shared := (enumerate_samples frame (priors.getD 0 []) (1, 0)).take branch_factor
  let uniq := shared.map (fun y => binarize 88 y.2)
  let base := (uniq.map (fun bs => (List.range priors.length).map (fun i => (i, bs)))).flatten
  (List.range priors.length).foldlM
    (fun acc i =>
      ((enumerate_samples frame (priors.getD i []) (0, 1)).take branch_factor).foldlM
        (fun acc2 y => do
          let bs := binarize 88 y.2
          let keep ← unionSkipGuard bs uniq
          if keep then pure (acc2 ++ [(i, bs)]) else pure acc2)
        acc)
    base

/-! ## Beam states and pruning

`beam.py` and `state.py` are not part of the sources; they are modelled from
the specification (sections 3, 4.2 and 4.3). -/

/-- Modelled from the spec: `state.py` is not under `src/`.  Section 3 and
section 4.2 describe a BeamState as an accumulated log-probability together
with an append-only history of accepted samples; `transition` appends the
sample and adds the step log-probability; the piano roll is the read-only
projection of the history.  Fields irrelevant to the claims (hidden-state
handle, prior) are omitted. -/
structure State where
  history : List (List ℝ)
  log_prob : ℝ

/-- Modelled from the spec: `State.transition` per section 4.2. -/
def State.transition (s : State) (sample : List ℝ) (lp : ℝ) : State :=
  ⟨s.history ++ [sample], s.log_prob + lp⟩

/-- Modelled from the spec: the terminal piano-roll projection of section 4.2. -/
def State.get_piano_roll (s : State) : List (List ℝ) := s.history

/-- Modelled from the spec: the hash key of section 3 — the concatenation of
the last `h` accepted samples of a state's history. -/
def hashKey (h : ℕ) (s : State) : List (List ℝ) := s.history.reverse.take h

open Classical in
/-- Modelled from the spec: `beam.py` is not under `src/`.  Section 4.3,
`prune_and_merge(beam_size, hash_length)`: when a hash length is provided,
keep of each hash-key group only a highest-log-probability member; then sort
by log-probability descending and truncate to `beam_size`. -/
noncomputable def cut_to_size (beam : List State) (beam_size : ℕ) (hash_length : Option ℕ) :
    List State :=
  let merged := match hash_length with
    | none => beam
    | some h => beam.filter
        (fun s => decide (∀ t ∈ beam, hashKey h t = hashKey h s → t.log_prob ≤ s.log_prob))
  (List.insertionSort (fun a b => b.log_prob ≤ a.log_prob) merged).take beam_size

/-- `decode.py` line 111: the decode loop prunes with `beam.cut_to_size(beam_size)`,
passing no hash-length argument. -/
noncomputable def decodeFramePrune (beam : List State) (beam_size : ℕ) : List State :=
  cut_to_size beam beam_size none

/-! ## `create_blending_data.py`: `get_weight_data` -/

/-- `create_blending_data.py` line 267: the hash lookback argument passed to
`cut_to_size` at frame `frame_num`. -/
def gwdHashArg (hash_length frame_num : ℕ) : ℕ := min hash_length (frame_num + 1)

/-- One frame of the `gt_only` branch of `get_weight_data`
(`create_blending_data.py` lines 238-268): the new beam consists of the single
forced transition `state.transition(gt_frame, 0.0)` — `state` being the
leftover loop variable, i.e. the last state of the current beam — and is then
cut to size with `min(hash_length, frame_num + 1)`. -/
noncomputable def gtOnlyStep (beam_size hash_length : ℕ) (acc : List State × ℕ)
    (gt_frame : List ℝ) : List State × ℕ :=
  match acc.1.getLast? with
  | none => ([], acc.2 + 1)
  | some st =>
      (cut_to_size [st.transition gt_frame 0] beam_size (some (gwdHashArg hash_length acc.2)),
       acc.2 + 1)

/-- The whole `gt_only` decode of `get_weight_data`: fold the per-frame step
over the ground-truth frames, starting from the initial beam (one state with
empty history and cumulative log-probability `0`, spec section 4.3 `seed`). -/
noncomputable def gtOnlyDecode (gt : List (List ℝ)) (beam_size hash_length : ℕ) : List State :=
  (gt.foldl (gtOnlyStep beam_size hash_length) ([⟨[], 0⟩], 0)).1

/-! ## Basic lemmas -/

theorem getD_zipWith (f : ℝ → ℝ → ℝ) :
    ∀ (xs ys : List ℝ) (i : ℕ), i < xs.length → i < ys.length →
      (List.zipWith f xs ys).getD i 0 = f (xs.getD i 0) (ys.getD i 0) := by
  intro xs
  induction xs with
  | nil => intro ys i h; simp at h
  | cons x xs ih =>
    intro ys i h hy
    cases ys with
    | nil => simp at hy
    | cons y ys =>
      cases i with
      | zero => simp [List.getD]
      | succ n =>
        simp only [List.zipWith_cons_cons, List.getD_cons_succ]
        exact ih ys n (by simpa using h) (by simpa using hy)

theorem combinedP_length (w : ℝ × ℝ) (acoustic language : List ℝ)
    (hlen : language.length = acoustic.length) :
    (combinedP w acoustic language).length = acoustic.length := by
  simp [combinedP, hlen]

theorem combinedNotP_length (w : ℝ × ℝ) (acoustic language : List ℝ)
    (hlen : language.length = acoustic.length) :
    (combinedNotP w acoustic language).length = acoustic.length := by
  simp [combinedNotP, hlen]

/-! ## C5: no epsilon clamping of degenerate probabilities -/

/-- C5, counterexample: for `acoustic = [1]`, `language = [0]`, `weight = (1, 0)` —
all entries inside `[0, 1]` — the combined probabilities handed to `np.log` are
exactly `1` and exactly `0`: no epsilon clamping is applied by
`enumerate_samples`/`get_log_prob`, so the claimed "clamped a small epsilon
away from 0/1" fails (in IEEE arithmetic `np.log(0)` is `-inf`). -/
theorem no_clamping_cx :
    combinedP (1, 0) [1] [0] = [1] ∧ combinedNotP (1, 0) [1] [0] = [0] := by
  constructor <;> norm_num [combinedP, combinedNotP]

/-- C5, amended: no clamping is performed — the vectors handed to the logarithms
are exactly the raw mixtures `w_a*a + w_l*b` and `w_a*(1-a) + w_l*(1-b)`,
including when these are exactly `0` or `1`. -/
theorem combined_prob_unclamped (w : ℝ × ℝ) (acoustic language : List ℝ) (i : ℕ)
    (ha : i < acoustic.length) (hl : i < language.length) :
    (combinedP w acoustic language).getD i 0
        = w.1 * acoustic.getD i 0 + w.2 * language.getD i 0 ∧
    (combinedNotP w acoustic language).getD i 0
        = w.1 * (1 - acoustic.getD i 0) + w.2 * (1 - language.getD i 0) :=
  ⟨getD_zipWith _ acoustic language i ha hl, getD_zipWith _ acoustic language i ha hl⟩

/-- Witness for `combined_prob_unclamped` at the counterexample input. -/
theorem combined_prob_unclamped_wit :
    (0 < ([(1 : ℝ)] : List ℝ).length ∧ 0 < ([(0 : ℝ)] : List ℝ).length) ∧
    ((combinedP (1, 0) [1] [0]).getD 0 0
        = 1 * ([(1 : ℝ)] : List ℝ).getD 0 0 + 0 * ([(0 : ℝ)] : List ℝ).getD 0 0 ∧
     (combinedNotP (1, 0) [1] [0]).getD 0 0
        = 1 * (1 - ([(1 : ℝ)] : List ℝ).getD 0 0) + 0 * (1 - ([(0 : ℝ)] : List ℝ).getD 0 0)) :=
  ⟨⟨by decide, by decide⟩, combined_prob_unclamped (1, 0) [1] [0] 0 (by decide) (by decide)⟩

/-! ## C9: shape mismatches -/

/-- C9, counterexample: the lengths 2 and 1 disagree, yet the call succeeds —
numpy silently broadcasts a length-1 operand instead of raising. -/
theorem shape_mismatch_cx :
    (enumerate_samples_np [1/2, 1/2] [1/2] (1/2, 1/2)).isOk = true ∧
    ([(1 : ℝ)/2, 1/2] : List ℝ).length ≠ ([(1 : ℝ)/2] : List ℝ).length := by
  refine ⟨?_, by decide⟩
  simp [enumerate_samples_np, combinedP_np, combinedNotP_np, npAdd, Except.isOk, Except.toBool,
    Bind.bind, Except.bind, Pure.pure, Except.pure]

/-- C9, amended: a length disagreement between `acoustic` and `language` raises
a shape-mismatch error — except when either operand has length 1, which numpy
silently broadcasts. -/
theorem shape_mismatch_error (acoustic language : List ℝ) (w : ℝ × ℝ)
    (hne : acoustic.length ≠ language.length)
    (ha1 : acoustic.length ≠ 1) (hl1 : language.length ≠ 1) :
    enumerate_samples_np acoustic language w
      = Except.error "ValueError: operands could not be broadcast together" := by
  simp [enumerate_samples_np, combinedP_np, combinedNotP_np, npAdd, hne, ha1, hl1,
    Bind.bind, Except.bind]

/-- Witness for `shape_mismatch_error` with lengths 2 and 3. -/
theorem shape_mismatch_error_wit :
    (([(1 : ℝ)/2, 1/2] : List ℝ).length ≠ ([(1 : ℝ)/3, 1/3, 1/3] : List ℝ).length ∧
     ([(1 : ℝ)/2, 1/2] : List ℝ).length ≠ 1 ∧
     ([(1 : ℝ)/3, 1/3, 1/3] : List ℝ).length ≠ 1) ∧
    enumerate_samples_np [1/2, 1/2] [1/3, 1/3, 1/3] (1/2, 1/2)
      = Except.error "ValueError: operands could not be broadcast together" :=
  ⟨⟨by decide, by decide, by decide⟩,
   shape_mismatch_error [1/2, 1/2] [1/3, 1/3, 1/3] (1/2, 1/2)
     (by decide) (by decide) (by decide)⟩

/-! ## C6: the union-mode deduplication raises -/

/-- C6: the deduplication step of union sampling does not complete: as soon as
the shared pool is non-empty, the Python membership test
`binary_sample in unique_samples` takes the truth value of an 88-element
comparison and raises a `ValueError` — even for a row identical to a pool row
(the case the claim says is dropped). -/
theorem union_dedup_raises :
    unionSkipGuard (binarize 88 ∅) [binarize 88 ∅]
      = Except.error
          "ValueError: the truth value of an array with more than one element is ambiguous" := by
  have hlen : (npEq (binarize 88 ∅) (binarize 88 ∅)).length = 88 := by
    simp [npEq, binarize]
  simp [unionSkipGuard, pyIn, npTruth, hlen, Bind.bind, Except.bind]

/-! ## C7: hash lookback clamping -/

/-- C7, amended: in `get_weight_data` the hash lookback passed at frame `t` is
`min(hash_length, t+1)`, never exceeding the available history; the main
`decode` loop instead calls `cut_to_size` with the beam size only — no hash
lookback argument at all. -/
theorem gwd_hash_clamped (hash_length frame_num beam_size : ℕ) (beam : List State) :
    gwdHashArg hash_length frame_num ≤ frame_num + 1 ∧
    gwdHashArg hash_length frame_num ≤ hash_length ∧
    decodeFramePrune beam beam_size = cut_to_size beam beam_size none :=
  ⟨min_le_right _ _, min_le_left _ _, rfl⟩

/-- C7, counterexample: a two-state beam whose states share the same history;
`decode`'s actual per-frame pruning (no hash argument) keeps both states, while
the pruning the claim describes (hash lookback `min(hash_length, t+1)` with
`hash_length = 10`, `t = 0`) merges them — so the decode loop is not pruned
with the claimed clamped hash-merge. -/
theorem decode_prune_no_hash_cx :
    (decodeFramePrune [⟨[[1]], 0⟩, ⟨[[1]], -1⟩] 2).length = 2 ∧
    (cut_to_size [⟨[[1]], 0⟩, ⟨[[1]], -1⟩] 2 (some (gwdHashArg 10 0))).length = 1 ∧
    decodeFramePrune [⟨[[1]], 0⟩, ⟨[[1]], -1⟩] 2
      ≠ cut_to_size [⟨[[1]], 0⟩, ⟨[[1]], -1⟩] 2 (some (gwdHashArg 10 0)) := by
  have h1 : decodeFramePrune [⟨[[1]], 0⟩, ⟨[[1]], -1⟩] 2 = [⟨[[1]], 0⟩, ⟨[[1]], -1⟩] := by
    have : ((-1 : ℝ) ≤ 0) = True := by norm_num
    simp [decodeFramePrune, cut_to_size, List.insertionSort, List.orderedInsert, this]
  have h2 : cut_to_size [⟨[[1]], 0⟩, ⟨[[1]], -1⟩] 2 (some (gwdHashArg 10 0))
      = [⟨[[1]], 0⟩] := by
    simp only [cut_to_size, gwdHashArg, List.filter_cons, List.filter_nil,
      decide_eq_true_eq]
    split_ifs with hA hB hB
    · exfalso
      have := hB ⟨[[1]], 0⟩ (by simp) (by rfl)
      norm_num at this
    · simp [List.insertionSort, List.orderedInsert]
    · exfalso
      apply hA
      intro t ht _
      rcases List.mem_pair.mp ht with h | h <;> subst h <;> norm_num
    · exfalso
      apply hA
      intro t ht _
      rcases List.mem_pair.mp ht with h | h <;> subst h <;> norm_num
  refine ⟨by rw [h1]; simp, by rw [h2]; simp, ?_⟩
  rw [h1, h2]
  intro h
  simpa using congrArg List.length h

/-! ## C8: gt_only mode -/

theorem cut_to_size_singleton (st : State) (beam_size : ℕ) (h : 1 ≤ beam_size)
    (hl : Option ℕ) : cut_to_size [st] beam_size hl = [st] := by
  have htake : List.take beam_size [st] = [st] :=
    List.take_of_length_le (by simpa using h)
  cases hl with
  | none => simpa [cut_to_size, List.insertionSort, List.orderedInsert] using htake
  | some h' =>
    have hp : (∀ t ∈ [st], hashKey h' t = hashKey h' st → t.log_prob ≤ st.log_prob) := by
      intro t ht _
      rw [List.mem_singleton.mp ht]
    simp only [cut_to_size, List.filter_cons, List.filter_nil, decide_eq_true_eq, if_pos hp]
    simpa [List.insertionSort, List.orderedInsert] using htake

theorem gtOnly_fold (beam_size hash_length : ℕ) (h : 1 ≤ beam_size) :
    ∀ (gt pref : List (List ℝ)) (n : ℕ),
      (gt.foldl (gtOnlyStep beam_size hash_length) ([⟨pref, 0⟩], n)).1
        = [⟨pref ++ gt, 0⟩] := by
  intro gt
  induction gt with
  | nil => intro pref n; simp
  | cons f fs ih =>
    intro pref n
    have hstep : gtOnlyStep beam_size hash_length ([⟨pref, 0⟩], n) f
        = ([⟨pref ++ [f], 0⟩], n + 1) := by
      simp only [gtOnlyStep, List.getLast?_singleton]
      rw [cut_to_size_singleton _ _ h]
      simp [State.transition]
    rw [List.foldl_cons, hstep, ih]
    simp

/-- C8: in `gt_only` mode the beam holds a single state throughout; each frame it
takes exactly one forced transition onto the supplied ground-truth frame with
transition log-probability exactly `0` (no ranked enumeration is invoked), and
the final piano roll is exactly the supplied ground-truth sequence, with
cumulative log-probability `0`. -/
theorem gt_only_reproduces (gt : List (List ℝ)) (beam_size hash_length : ℕ)
    (h : 1 ≤ beam_size) :
    gtOnlyDecode gt beam_size hash_length = [⟨gt, 0⟩] ∧
    ∀ s ∈ gtOnlyDecode gt beam_size hash_length,
      s.get_piano_roll = gt ∧ s.log_prob = 0 := by
  have h1 : gtOnlyDecode gt beam_size hash_length = [⟨gt, 0⟩] := by
    have := gtOnly_fold beam_size hash_length h gt [] 0
    simpa [gtOnlyDecode] using this
  refine ⟨h1, ?_⟩
  intro s hs
  rw [h1, List.mem_singleton] at hs
  rw [hs]
  exact ⟨rfl, rfl⟩

/-- Witness for `gt_only_reproduces` on a concrete two-frame ground truth. -/
theorem gt_only_reproduces_wit :
    (1 : ℕ) ≤ 1 ∧
    (gtOnlyDecode [[1], [0]] 1 10 = [⟨[[1], [0]], 0⟩] ∧
     ∀ s ∈ gtOnlyDecode [[1], [0]] 1 10, s.get_piano_roll = [[1], [0]] ∧ s.log_prob = 0) :=
  ⟨le_refl 1, gt_only_reproduces [[1], [0]] 1 10 (le_refl 1)⟩

/-! ## C10: union-mode branch-factor halving -/

theorem foldlM_pure_except {β : Type} (l : List ℕ) (b : β) :
    l.foldlM (fun acc (_ : ℕ) => (pure acc : Except String β)) b = pure b := by
  induction l generalizing b with
  | nil => rfl
  | cons x xs ih => simp [List.foldlM_cons, ih]

/-- C10: in union mode the branch factor is halved once at entry
(`int(branch_factor / 2)`); the shared acoustic-only pool and every state's
language-only pool are each cut to at most `branch_factor / 2` samples per
frame; and with `branch_factor ≤ 1` a frame produces no candidates at all. -/
theorem union_branch_halving (frame : List ℝ) (priors : List (List ℝ)) (branch_factor : ℕ) :
    unionBranchFactor "union" branch_factor = branch_factor / 2 ∧
    ((enumerate_samples frame (priors.getD 0 []) (1, 0)).take (branch_factor / 2)).length
        ≤ branch_factor / 2 ∧
    (∀ prior ∈ priors,
        ((enumerate_samples frame prior (0, 1)).take (branch_factor / 2)).length
          ≤ branch_factor / 2) ∧
    (branch_factor ≤ 1 →
        unionFrameCandidates frame priors (unionBranchFactor "union" branch_factor)
          = Except.ok ([] : List (ℕ × List ℝ))) := by
  refine ⟨rfl, List.length_take_le _ _, fun _ _ => List.length_take_le _ _, ?_⟩
  intro hbf
  have h1 : unionBranchFactor "union" branch_factor = branch_factor / 2 := by
    simp [unionBranchFactor]
  have h0 : branch_factor / 2 = 0 := by omega
  rw [h1, h0]
  exact foldlM_pure_except (List.range priors.length) []

/-- Witness for `union_branch_halving` at `branch_factor = 1`. -/
theorem union_branch_halving_wit :
    (1 : ℕ) ≤ 1 ∧
    unionFrameCandidates [1/2] [[1/2]] (unionBranchFactor "union" 1)
      = Except.ok ([] : List (ℕ × List ℝ)) :=
  ⟨le_refl 1, (union_branch_halving [1/2] [[1/2]] 1).2.2.2 (le_refl 1)⟩

/-! ## C3: the greedy MAP head -/

/-- C3: the first element yielded by `enumerate_samples` is the
independent-greedy MAP assignment — the set of indices with `p_i > not_p_i`,
scored `Σ log (max p_i not_p_i)`. -/
theorem enumerate_samples_first (acoustic language : List ℝ) (w : ℝ × ℝ)
    (hlen : language.length = acoustic.length) :
    ∃ first, (enumerate_samples acoustic language w).head? = some first ∧
      (∀ i, i ∈ first.2 ↔ i < acoustic.length ∧
          (combinedNotP w acoustic language).getD i 0
            < (combinedP w acoustic language).getD i 0) ∧
      first.1 = ∑ i in Finset.range acoustic.length,
          Real.log (max ((combinedP w acoustic language).getD i 0)
                        ((combinedNotP w acoustic language).getD i 0)) := by
  classical
  have hP : (combinedP w acoustic language).length = acoustic.length :=
    combinedP_length w acoustic language hlen
  refine ⟨(greedyL (combinedP w acoustic language) (combinedNotP w acoustic language),
      greedyV (combinedP w acoustic language) (combinedNotP w acoustic language)),
      ?_, ?_, ?_⟩
  · simp only [enumerate_samples, enumFromP, List.head?_cons]
  · intro i
    simp only [greedyV, Finset.mem_filter, Finset.mem_range, hP]
  · simp only [greedyL, hP]

/-- Witness for `enumerate_samples_first`: end-to-end scenario A, acoustic
`[0.9, 0.1]`, one frame, acoustic-only weight. -/
theorem enumerate_samples_first_wit :
    ([(1 : ℝ)/2, 1/2] : List ℝ).length = ([(9 : ℝ)/10, 1/10] : List ℝ).length ∧
    (∃ first, (enumerate_samples [9/10, 1/10] [1/2, 1/2] (1, 0)).head? = some first ∧
      (∀ i, i ∈ first.2 ↔ i < ([(9 : ℝ)/10, 1/10] : List ℝ).length ∧
          (combinedNotP (1, 0) [9/10, 1/10] [1/2, 1/2]).getD i 0
            < (combinedP (1, 0) [9/10, 1/10] [1/2, 1/2]).getD i 0) ∧
      first.1 = ∑ i in Finset.range ([(9 : ℝ)/10, 1/10] : List ℝ).length,
          Real.log (max ((combinedP (1, 0) [9/10, 1/10] [1/2, 1/2]).getD i 0)
                        ((combinedNotP (1, 0) [9/10, 1/10] [1/2, 1/2]).getD i 0))) :=
  ⟨rfl, enumerate_samples_first [9/10, 1/10] [1/2, 1/2] (1, 0) rfl⟩

/-! ## Queue and drain-loop lemmas -/

theorem entryLE_refl (a : Entry) : entryLE a a := Or.inr ⟨rfl, le_refl _⟩

theorem entryLE_l {a b : Entry} (h : entryLE a b) : a.l ≤ b.l := by
  rcases h with h | ⟨h, _⟩
  · exact le_of_lt h
  · exact le_of_eq h

theorem entryLE_trans {a b c : Entry} (hab : entryLE a b) (hbc : entryLE b c) :
    entryLE a c := by
  rcases hab with hab | ⟨hab, hab'⟩ <;> rcases hbc with hbc | ⟨hbc, hbc'⟩
  · exact Or.inl (lt_trans hab hbc)
  · exact Or.inl (hbc ▸ hab)
  · exact Or.inl (hab ▸ hbc)
  · exact Or.inr ⟨hab.trans hbc, hab'.trans hbc'⟩

theorem entryLE_total (a b : Entry) : entryLE a b ∨ entryLE b a := by
  rcases lt_trichotomy a.l b.l with h | h | h
  · exact Or.inl (Or.inl h)
  · rcases le_total a.num b.num with h' | h'
    · exact Or.inl (Or.inr ⟨h, h'⟩)
    · exact Or.inr (Or.inr ⟨h.symm, h'⟩)
  · exact Or.inr (Or.inl h)

theorem popMin_spec :
    ∀ (q : List Entry) (e : Entry) (rest : List Entry), popMin q = some (e, rest) →
      q.Perm (e :: rest) ∧ ∀ x ∈ q, entryLE e x := by
  intro q
  induction q with
  | nil => intro e rest h; simp [popMin] at h
  | cons a as ih =>
    intro e rest h
    rw [popMin] at h
    split at h
    next has =>
      simp only [Option.some.injEq, Prod.mk.injEq] at h
      obtain ⟨rfl, rfl⟩ := h
      refine ⟨List.Perm.refl _, ?_⟩
      intro x hx
      rcases List.mem_cons.mp hx with rfl | hx
      · exact entryLE_refl _
      · -- as = [] since popMin as = none
        exfalso
        cases as with
        | nil => simp at hx
        | cons b bs =>
          rw [popMin] at has
          split at has
          · simp at has
          · split_ifs at has
    next m r has =>
      obtain ⟨hperm, hmin⟩ := ih m r has
      split_ifs at h with hle <;>
        simp only [Option.some.injEq, Prod.mk.injEq] at h
      · obtain ⟨rfl, rfl⟩ := h
        refine ⟨List.Perm.refl _, ?_⟩
        intro x hx
        rcases List.mem_cons.mp hx with rfl | hx
        · exact entryLE_refl _
        · exact entryLE_trans hle (hmin x hx)
      · obtain ⟨rfl, rfl⟩ := h
        refine ⟨?_, ?_⟩
        · exact (hperm.cons a).trans (List.Perm.swap m a r)
        · intro x hx
          rcases List.mem_cons.mp hx with rfl | hx
          · rcases entryLE_total m x with h' | h'
            · exact h'
            · exact absurd h' hle
          · exact hmin x hx

theorem drainF_zero (Ls : List ℝ) (num : ℕ) (q : List Entry) :
    drainF Ls 0 num q = [] := rfl

theorem drainF_succ_none (Ls : List ℝ) (fuel num : ℕ) (q : List Entry)
    (h : popMin q = none) : drainF Ls (fuel + 1) num q = [] := by
  rw [drainF, h]

/-- One unfolding of the loop after a successful pop. -/
theorem drainF_succ (Ls : List ℝ) (fuel num : ℕ) (q : List Entry) (e : Entry)
    (q' : List Entry) (h : popMin q = some (e, q')) :
    drainF Ls (fuel + 1) num q =
      if e.v.sup id + 1 < Ls.length then
        (e.l, e.v) ::
          drainF Ls fuel (num + 2)
            (q' ++ [⟨e.l + Ls.getD (e.v.sup id + 1) 0, num, insert (e.v.sup id + 1) e.v⟩,
                    ⟨e.l + Ls.getD (e.v.sup id + 1) 0 - Ls.getD (e.v.sup id) 0, num + 1,
                     npSetXor (insert (e.v.sup id + 1) e.v) {e.v.sup id}⟩])
      else (e.l, e.v) :: drainF Ls fuel num q' := by
  rw [drainF, h]

theorem getD_nonneg_of_forall (l : List ℝ) (h : ∀ x ∈ l, 0 ≤ x) :
    ∀ i : ℕ, 0 ≤ l.getD i 0 := by
  induction l with
  | nil => intro i; simp
  | cons a as ih =>
    intro i
    cases i with
    | zero => exact h a (List.mem_cons_self a as)
    | succ n => exact ih (fun x hx => h x (List.mem_cons_of_mem a hx)) n

theorem getD_mem_of_lt (l : List ℝ) : ∀ i : ℕ, i < l.length → l.getD i 0 ∈ l := by
  induction l with
  | nil => intro i h; simp at h
  | cons a as ih =>
    intro i h
    cases i with
    | zero => simp
    | succ n => exact List.mem_cons_of_mem a (ih n (by simpa using h))

theorem getD_mono (l : List ℝ) (hs : List.Pairwise (· ≤ ·) l) :
    ∀ i j : ℕ, i ≤ j → j < l.length → l.getD i 0 ≤ l.getD j 0 := by
  induction l with
  | nil => intro i j _ h; simp at h
  | cons a as ih =>
    intro i j hij hj
    rcases List.pairwise_cons.mp hs with ⟨ha, has⟩
    cases i with
    | zero =>
      cases j with
      | zero => exact le_refl _
      | succ m =>
        exact ha _ (getD_mem_of_lt as m (by simpa using hj))
    | succ n =>
      cases j with
      | zero => omega
      | succ m =>
        exact ih has n m (by omega) (by simpa using hj)

theorem drainF_lb (Ls : List ℝ) (hnn : ∀ x ∈ Ls, 0 ≤ x)
    (hsort : List.Pairwise (· ≤ ·) Ls) :
    ∀ (fuel num : ℕ) (q : List Entry) (c : ℝ), (∀ e ∈ q, c ≤ e.l) →
      ∀ y ∈ drainF Ls fuel num q, c ≤ y.1 := by
  intro fuel
  induction fuel with
  | zero => intro num q c _ y hy; simp [drainF_zero] at hy
  | succ fuel ih =>
    intro num q c hq y hy
    rcases hpop : popMin q with _ | ⟨e, q'⟩
    · rw [drainF_succ_none Ls fuel num q hpop] at hy; simp at hy
    · obtain ⟨hperm, _⟩ := popMin_spec q e q' hpop
      have hce : c ≤ e.l := hq e (hperm.mem_iff.mpr (List.mem_cons_self _ _))
      have hq' : ∀ x ∈ q', c ≤ x.l := fun x hx =>
        hq x (hperm.mem_iff.mpr (List.mem_cons_of_mem e hx))
      rw [drainF_succ Ls fuel num q e q' hpop] at hy
      split_ifs at hy with hg
      · rcases List.mem_cons.mp hy with rfl | hy
        · exact hce
        · refine ih (num + 2) _ c ?_ y hy
          intro x hx
          rcases List.mem_append.mp hx with hx | hx
          · exact hq' x hx
          · have h1 : 0 ≤ Ls.getD (e.v.sup id + 1) 0 :=
              getD_nonneg_of_forall Ls hnn _
            have h2 : Ls.getD (e.v.sup id) 0 ≤ Ls.getD (e.v.sup id + 1) 0 :=
              getD_mono Ls hsort _ _ (by omega) hg
            rcases List.mem_cons.mp hx with rfl | hx
            · simp only []
              linarith
            · rcases List.mem_singleton.mp hx with rfl
              simp only []
              linarith
      · rcases List.mem_cons.mp hy with rfl | hy
        · exact hce
        · exact ih num q' c hq' y hy

theorem drainF_sorted (Ls : List ℝ) (hnn : ∀ x ∈ Ls, 0 ≤ x)
    (hsort : List.Pairwise (· ≤ ·) Ls) :
    ∀ (fuel num : ℕ) (q : List Entry),
      List.Pairwise (fun x y => x.1 ≤ y.1) (drainF Ls fuel num q) := by
  intro fuel
  induction fuel with
  | zero => intro num q; simp [drainF_zero]
  | succ fuel ih =>
    intro num q
    rcases hpop : popMin q with _ | ⟨e, q'⟩
    · rw [drainF_succ_none Ls fuel num q hpop]; exact List.Pairwise.nil
    · obtain ⟨hperm, hmin⟩ := popMin_spec q e q' hpop
      have hq' : ∀ x ∈ q', e.l ≤ x.l := fun x hx =>
        entryLE_l (hmin x (hperm.mem_iff.mpr (List.mem_cons_of_mem e hx)))
      rw [drainF_succ Ls fuel num q e q' hpop]
      split_ifs with hg
      · refine List.pairwise_cons.mpr ⟨?_, ih _ _⟩
        intro y hy
        refine drainF_lb Ls hnn hsort fuel (num + 2) _ e.l ?_ y hy
        intro x hx
        rcases List.mem_append.mp hx with hx | hx
        · exact hq' x hx
        · have h1 : 0 ≤ Ls.getD (e.v.sup id + 1) 0 :=
            getD_nonneg_of_forall Ls hnn _
          have h2 : Ls.getD (e.v.sup id) 0 ≤ Ls.getD (e.v.sup id + 1) 0 :=
            getD_mono Ls hsort _ _ (by omega) hg
          rcases List.mem_cons.mp hx with rfl | hx
          · simp only []
            linarith
          · rcases List.mem_singleton.mp hx with rfl
            simp only []
            linarith
      · refine List.pairwise_cons.mpr ⟨?_, ih _ _⟩
        intro y hy
        exact drainF_lb Ls hnn hsort fuel num q' e.l hq' y hy

/-! ## Penalty-vector facts -/

theorem penalties_nonneg (p not_p : List ℝ) : ∀ x ∈ penalties p not_p, 0 ≤ x := by
  rw [penalties]
  induction p generalizing not_p with
  | nil => simp
  | cons a as ih =>
    cases not_p with
    | nil => simp
    | cons b bs =>
      intro x hx
      rcases List.mem_cons.mp hx with rfl | hx
      · exact abs_nonneg _
      · exact ih bs x hx

theorem argsort_sorted (L : List ℝ) :
    List.Sorted (fun i j => L.getD i 0 ≤ L.getD j 0) (argsort L) := by
  rw [argsort]
  haveI h1 : IsTotal ℕ (fun i j => L.getD i 0 ≤ L.getD j 0) := ⟨fun a b => le_total _ _⟩
  haveI h2 : IsTrans ℕ (fun i j => L.getD i 0 ≤ L.getD j 0) :=
    ⟨fun a b c hab hbc => le_trans hab hbc⟩
  exact List.sorted_insertionSort _ _

theorem argsort_perm (L : List ℝ) : (argsort L).Perm (List.range L.length) :=
  List.perm_insertionSort _ _

theorem sortedPen_nonneg (p not_p : List ℝ) : ∀ x ∈ sortedPen p not_p, 0 ≤ x := by
  intro x hx
  obtain ⟨j, _, rfl⟩ := List.mem_map.mp hx
  exact getD_nonneg_of_forall _ (penalties_nonneg p not_p) j

theorem sortedPen_sorted (p not_p : List ℝ) :
    List.Pairwise (· ≤ ·) (sortedPen p not_p) := by
  rw [sortedPen]
  exact List.Pairwise.map _ (fun a b h => h) (argsort_sorted (penalties p not_p))

/-! ## C1: log-probabilities are yielded in non-increasing order -/

theorem enumFromP_antitone (p not_p : List ℝ) :
    List.Pairwise (fun x y => y.1 ≤ x.1) (enumFromP p not_p) := by
  have hnn := sortedPen_nonneg p not_p
  have hsort := sortedPen_sorted p not_p
  rw [enumFromP]
  refine List.pairwise_cons.mpr ⟨?_, ?_⟩
  · intro y hy
    obtain ⟨z, hz, rfl⟩ := List.mem_map.mp hy
    have h0 : 0 ≤ z.1 := by
      refine drainF_lb _ hnn hsort _ 1 _ 0 ?_ z hz
      intro e he
      rcases List.mem_singleton.mp he with rfl
      exact getD_nonneg_of_forall _ hnn 0
    simp only []
    linarith
  · rw [List.pairwise_map]
    refine List.Pairwise.imp ?_ (drainF_sorted _ hnn hsort _ 1 _)
    intro a b hab
    simp only []
    linarith

/-- C1: for every pair of probability vectors and every weight, the sequence
of log-probabilities yielded by `enumerate_samples` is non-increasing: each
yielded `log_prob` is at most every `log_prob` yielded before it, over the
whole sequence (hence in particular over any `branch_factor`-prefix). -/
theorem enumerate_samples_antitone (acoustic language : List ℝ) (w : ℝ × ℝ) :
    List.Pairwise (fun x y => y.1 ≤ x.1) (enumerate_samples acoustic language w) := by
  rw [enumerate_samples]
  exact enumFromP_antitone _ _

/-! ## Finset helpers for the flip sets -/

theorem sup_mem_of_nonempty {v : Finset ℕ} (h : v.Nonempty) : v.sup id ∈ v := by
  obtain ⟨b, hb, he⟩ := Finset.exists_mem_eq_sup v h id
  rw [he]
  exact hb

theorem le_sup_of_mem {v : Finset ℕ} {x : ℕ} (h : x ∈ v) : x ≤ v.sup id :=
  Finset.le_sup (f := id) h

theorem sup_insert_succ (v : Finset ℕ) :
    (insert (v.sup id + 1) v).sup id = v.sup id + 1 := by
  rw [Finset.sup_insert]
  exact max_eq_left (Nat.le_succ _)

theorem sup_erase_insert (v : Finset ℕ) :
    ((insert (v.sup id + 1) v).erase (v.sup id)).sup id = v.sup id + 1 := by
  apply le_antisymm
  · apply Finset.sup_le
    intro x hx
    rcases Finset.mem_erase.mp hx with ⟨_, hx⟩
    rcases Finset.mem_insert.mp hx with rfl | hx
    · exact le_refl _
    · exact le_trans (le_sup_of_mem hx) (Nat.le_succ _)
  · exact Finset.le_sup (f := id)
      (Finset.mem_erase.mpr ⟨by omega, Finset.mem_insert_self _ _⟩)

theorem mem_npSetXor {s t : Finset ℕ} {i : ℕ} :
    i ∈ npSetXor s t ↔ ((i ∈ s ∨ i ∈ t) ∧ ¬(i ∈ s ∧ i ∈ t)) := by
  rw [npSetXor, Finset.mem_sdiff, Finset.mem_union, Finset.mem_inter]

theorem npSetXor_empty (s : Finset ℕ) : npSetXor s ∅ = s := by
  ext i
  simp [mem_npSetXor]

theorem npSetXor_left_cancel {a x y : Finset ℕ}
    (h : npSetXor a x = npSetXor a y) : x = y := by
  ext i
  have hi := Finset.ext_iff.mp h i
  rw [mem_npSetXor, mem_npSetXor] at hi
  by_cases hia : i ∈ a <;> by_cases hix : i ∈ x <;> by_cases hiy : i ∈ y <;> tauto

theorem npSetXor_singleton_erase {s : Finset ℕ} {i : ℕ} (h : i ∈ s) :
    npSetXor s {i} = s.erase i := by
  ext x
  rw [mem_npSetXor, Finset.mem_singleton, Finset.mem_erase]
  by_cases hx : x = i
  · subst hx
    tauto
  · tauto

/-! ## The queue invariant: costs are sums of sorted penalties over the flip set -/

/-- The invariant every queue entry of `enumerate_samples` satisfies: the flip
set is a non-empty set of positions into `L_sorted`, and the accumulated
penalty is the sum of the flipped sorted penalties. -/
def EntryInv (Ls : List ℝ) (e : Entry) : Prop :=
  e.v.Nonempty ∧ e.v ⊆ Finset.range Ls.length ∧ e.l = ∑ j in e.v, Ls.getD j 0

theorem push_fst_inv (Ls : List ℝ) (e : Entry) (he : EntryInv Ls e) (n : ℕ)
    (hg : e.v.sup id + 1 < Ls.length) :
    EntryInv Ls ⟨e.l + Ls.getD (e.v.sup id + 1) 0, n, insert (e.v.sup id + 1) e.v⟩ := by
  obtain ⟨hne, hsub, hsum⟩ := he
  have hnot : e.v.sup id + 1 ∉ e.v := by
    intro hmem
    have := le_sup_of_mem hmem
    omega
  refine ⟨Finset.insert_nonempty _ _, ?_, ?_⟩
  · exact Finset.insert_subset (Finset.mem_range.mpr hg) hsub
  · simp only [Finset.sum_insert hnot, hsum]
    ring

theorem push_snd_inv (Ls : List ℝ) (e : Entry) (he : EntryInv Ls e) (n : ℕ)
    (hg : e.v.sup id + 1 < Ls.length) :
    EntryInv Ls ⟨e.l + Ls.getD (e.v.sup id + 1) 0 - Ls.getD (e.v.sup id) 0, n,
      npSetXor (insert (e.v.sup id + 1) e.v) {e.v.sup id}⟩ := by
  obtain ⟨hne, hsub, hsum⟩ := he
  have hmem : e.v.sup id ∈ insert (e.v.sup id + 1) e.v :=
    Finset.mem_insert_of_mem (sup_mem_of_nonempty hne)
  have hnot : e.v.sup id + 1 ∉ e.v := by
    intro hmem'
    have := le_sup_of_mem hmem'
    omega
  have hxe : npSetXor (insert (e.v.sup id + 1) e.v) {e.v.sup id}
      = (insert (e.v.sup id + 1) e.v).erase (e.v.sup id) :=
    npSetXor_singleton_erase hmem
  refine ⟨?_, ?_, ?_⟩
  · rw [hxe]
    exact ⟨e.v.sup id + 1,
      Finset.mem_erase.mpr ⟨by omega, Finset.mem_insert_self _ _⟩⟩
  · rw [hxe]
    refine Finset.Subset.trans (Finset.erase_subset _ _) ?_
    exact Finset.insert_subset (Finset.mem_range.mpr hg) hsub
  · show e.l + Ls.getD (e.v.sup id + 1) 0 - Ls.getD (e.v.sup id) 0
        = ∑ j in npSetXor (insert (e.v.sup id + 1) e.v) {e.v.sup id}, Ls.getD j 0
    have h1 : (∑ x in (insert (e.v.sup id + 1) e.v).erase (e.v.sup id), Ls.getD x 0)
        + Ls.getD (e.v.sup id) 0 = ∑ x in insert (e.v.sup id + 1) e.v, Ls.getD x 0 :=
      Finset.sum_erase_add _ _ hmem
    have h2 : (∑ x in insert (e.v.sup id + 1) e.v, Ls.getD x 0)
        = Ls.getD (e.v.sup id + 1) 0 + ∑ x in e.v, Ls.getD x 0 :=
      Finset.sum_insert hnot
    rw [hxe, hsum]
    linarith

/-- Every yield of the drain loop, from a queue satisfying the invariant, is of
the form `(Σ_{j ∈ v} L_sorted[j], v)` for a non-empty `v ⊆ range P`. -/
theorem drainF_inv (Ls : List ℝ) :
    ∀ (fuel num : ℕ) (q : List Entry), (∀ e ∈ q, EntryInv Ls e) →
      ∀ y ∈ drainF Ls fuel num q,
        ∃ v : Finset ℕ, y = (∑ j in v, Ls.getD j 0, v) ∧ v.Nonempty ∧
          v ⊆ Finset.range Ls.length := by
  intro fuel
  induction fuel with
  | zero => intro num q _ y hy; simp [drainF_zero] at hy
  | succ fuel ih =>
    intro num q hq y hy
    rcases hpop : popMin q with _ | ⟨e, q'⟩
    · rw [drainF_succ_none Ls fuel num q hpop] at hy; simp at hy
    · obtain ⟨hperm, _⟩ := popMin_spec q e q' hpop
      have he : EntryInv Ls e := hq e (hperm.mem_iff.mpr (List.mem_cons_self _ _))
      have hq' : ∀ x ∈ q', EntryInv Ls x := fun x hx =>
        hq x (hperm.mem_iff.mpr (List.mem_cons_of_mem e hx))
      rw [drainF_succ Ls fuel num q e q' hpop] at hy
      split_ifs at hy with hg
      · rcases List.mem_cons.mp hy with rfl | hy
        · exact ⟨e.v, by rw [he.2.2], he.1, he.2.1⟩
        · refine ih (num + 2) _ ?_ y hy
          intro x hx
          rcases List.mem_append.mp hx with hx | hx
          · exact hq' x hx
          · rcases List.mem_cons.mp hx with rfl | hx
            · exact push_fst_inv Ls e he num hg
            · rcases List.mem_singleton.mp hx with rfl
              exact push_snd_inv Ls e he (num + 1) hg
      · rcases List.mem_cons.mp hy with rfl | hy
        · exact ⟨e.v, by rw [he.2.2], he.1, he.2.1⟩
        · exact ih num q' hq' y hy

/-! ## argsort and sorted-penalty facts -/

theorem getD_mem_of_lt' {α : Type} (d : α) :
    ∀ (l : List α) (i : ℕ), i < l.length → l.getD i d ∈ l := by
  intro l
  induction l with
  | nil => intro i h; simp at h
  | cons a as ih =>
    intro i h
    cases i with
    | zero => simp
    | succ n => exact List.mem_cons_of_mem a (ih n (by simpa using h))

theorem getD_map_of_lt (f : ℕ → ℝ) :
    ∀ (l : List ℕ) (j : ℕ), j < l.length → (l.map f).getD j 0 = f (l.getD j 0) := by
  intro l
  induction l with
  | nil => intro j h; simp at h
  | cons a as ih =>
    intro j h
    cases j with
    | zero => simp
    | succ n =>
      simp only [List.map_cons, List.getD_cons_succ]
      exact ih n (by simpa using h)

theorem argsort_length (L : List ℝ) : (argsort L).length = L.length := by
  have h := (argsort_perm L).length_eq
  simpa using h

theorem argsort_nodup (L : List ℝ) : (argsort L).Nodup :=
  ((argsort_perm L).nodup_iff).mpr (List.nodup_range _)

theorem argsort_mem_lt (L : List ℝ) {x : ℕ} (hx : x ∈ argsort L) : x < L.length := by
  have h := (argsort_perm L).mem_iff.mp hx
  simpa using h

theorem getD_inj_of_nodup {l : List ℕ} (hn : l.Nodup) :
    ∀ i j : ℕ, i < l.length → j < l.length → l.getD i 0 = l.getD j 0 → i = j := by
  induction l with
  | nil => intro i j hi; simp at hi
  | cons a as ih =>
    intro i j hi hj he
    rcases List.nodup_cons.mp hn with ⟨ha, has⟩
    cases i with
    | zero =>
      cases j with
      | zero => rfl
      | succ m =>
        exfalso
        apply ha
        rw [List.getD_cons_zero] at he
        rw [he]
        exact getD_mem_of_lt' 0 as m (by simpa using hj)
    | succ n =>
      cases j with
      | zero =>
        exfalso
        apply ha
        rw [List.getD_cons_zero] at he
        rw [← he]
        exact getD_mem_of_lt' 0 as n (by simpa using hi)
      | succ m =>
        have h := ih has n m (by simpa using hi) (by simpa using hj) (by simpa using he)
        omega

theorem penalties_length (p not_p : List ℝ) (hlen : not_p.length = p.length) :
    (penalties p not_p).length = p.length := by
  simp [penalties, hlen]

theorem sortedPen_length (p not_p : List ℝ) (hlen : not_p.length = p.length) :
    (sortedPen p not_p).length = p.length := by
  rw [sortedPen, List.length_map, argsort_length, penalties_length p not_p hlen]

theorem sortedPen_getD (p not_p : List ℝ) (j : ℕ)
    (hj : j < (argsort (penalties p not_p)).length) :
    (sortedPen p not_p).getD j 0
      = (penalties p not_p).getD ((argsort (penalties p not_p)).getD j 0) 0 := by
  rw [sortedPen]
  exact getD_map_of_lt _ _ j hj

theorem sortedPen_sum (p not_p : List ℝ) (v : Finset ℕ)
    (hv : v ⊆ Finset.range (argsort (penalties p not_p)).length) :
    ∑ j in v, (sortedPen p not_p).getD j 0
      = ∑ i in idxImage (argsort (penalties p not_p)) v, (penalties p not_p).getD i 0 := by
  have hinj : ∀ j1 ∈ v, ∀ j2 ∈ v,
      (argsort (penalties p not_p)).getD j1 0 = (argsort (penalties p not_p)).getD j2 0 →
        j1 = j2 := by
    intro j1 hj1 j2 hj2 he
    exact getD_inj_of_nodup (argsort_nodup _) j1 j2
      (Finset.mem_range.mp (hv hj1)) (Finset.mem_range.mp (hv hj2)) he
  rw [idxImage, Finset.sum_image hinj]
  refine Finset.sum_congr rfl ?_
  intro j hj
  exact sortedPen_getD p not_p j (Finset.mem_range.mp (hv hj))

theorem idxImage_subset_range (L : List ℝ) (v : Finset ℕ)
    (hv : v ⊆ Finset.range L.length) :
    idxImage (argsort L) v ⊆ Finset.range L.length := by
  intro x hx
  obtain ⟨j, hj, rfl⟩ := Finset.mem_image.mp hx
  have hjlt : j < (argsort L).length := by
    rw [argsort_length]
    exact Finset.mem_range.mp (hv hj)
  exact Finset.mem_range.mpr (argsort_mem_lt L (getD_mem_of_lt' 0 _ j hjlt))

theorem idxImage_inj (L : List ℝ) : ∀ {v1 v2 : Finset ℕ},
    v1 ⊆ Finset.range L.length → v2 ⊆ Finset.range L.length →
    idxImage (argsort L) v1 = idxImage (argsort L) v2 → v1 = v2 := by
  have key : ∀ v1 v2 : Finset ℕ, v1 ⊆ Finset.range L.length →
      v2 ⊆ Finset.range L.length →
      idxImage (argsort L) v1 = idxImage (argsort L) v2 → v1 ⊆ v2 := by
    intro v1 v2 h1 h2 he i hmem
    have hx : (argsort L).getD i 0 ∈ idxImage (argsort L) v2 := by
      rw [← he]
      exact Finset.mem_image_of_mem _ hmem
    obtain ⟨j, hj, hje⟩ := Finset.mem_image.mp hx
    have hlen : (argsort L).length = L.length := argsort_length L
    have hji : j = i := getD_inj_of_nodup (argsort_nodup L) j i
      (by rw [hlen]; exact Finset.mem_range.mp (h2 hj))
      (by rw [hlen]; exact Finset.mem_range.mp (h1 hmem)) hje
    rwa [hji] at hj
  intro v1 v2 h1 h2 he
  exact Finset.Subset.antisymm (key v1 v2 h1 h2 he) (key v2 v1 h2 h1 he.symm)

/-! ## The flip-cost identity -/

theorem log_abs_div (a b : ℝ) (ha : 0 < a) (hb : 0 < b) :
    |Real.log (a / b)| = Real.log (max a b) - Real.log (min a b) := by
  rw [Real.log_div (ne_of_gt ha) (ne_of_gt hb)]
  rcases le_total a b with h | h
  · rw [max_eq_right h, min_eq_left h,
      abs_of_nonpos (sub_nonpos.mpr ((Real.log_le_log_iff ha hb).mpr h)), neg_sub]
  · rw [max_eq_left h, min_eq_right h,
      abs_of_nonneg (sub_nonneg.mpr ((Real.log_le_log_iff hb ha).mpr h))]

theorem flip_cost_min_max (p not_p : List ℝ) (hlen : not_p.length = p.length)
    (hpos : ∀ i < p.length, 0 < p.getD i 0 ∧ 0 < not_p.getD i 0)
    (F : Finset ℕ) (hF : F ⊆ Finset.range p.length) :
    greedyL p not_p - ∑ i in F, (penalties p not_p).getD i 0
      = ∑ i in Finset.range p.length,
          if i ∈ F then Real.log (min (p.getD i 0) (not_p.getD i 0))
          else Real.log (max (p.getD i 0) (not_p.getD i 0)) := by
  classical
  have hsumF : (∑ i in Finset.range p.length,
      (if i ∈ F then (penalties p not_p).getD i 0 else 0))
      = ∑ i in F, (penalties p not_p).getD i 0 := by
    rw [Finset.sum_ite_mem, Finset.inter_eq_right.mpr hF]
  rw [greedyL, ← hsumF, ← Finset.sum_sub_distrib]
  refine Finset.sum_congr rfl ?_
  intro i hi
  have hi' := Finset.mem_range.mp hi
  obtain ⟨hp, hnp⟩ := hpos i hi'
  have hpen : (penalties p not_p).getD i 0
      = |Real.log (p.getD i 0 / not_p.getD i 0)| :=
    getD_zipWith _ p not_p i hi' (by omega)
  by_cases hiF : i ∈ F
  · rw [if_pos hiF, if_pos hiF, hpen, log_abs_div _ _ hp hnp]
    ring
  · rw [if_neg hiF, if_neg hiF]
    ring

theorem flip_cost_sample (p not_p : List ℝ) (hlen : not_p.length = p.length)
    (hpos : ∀ i < p.length, 0 < p.getD i 0 ∧ 0 < not_p.getD i 0)
    (F : Finset ℕ) (hF : F ⊆ Finset.range p.length) :
    greedyL p not_p - ∑ i in F, (penalties p not_p).getD i 0
      = ∑ i in Finset.range p.length,
          if i ∈ npSetXor (greedyV p not_p) F then Real.log (p.getD i 0)
          else Real.log (not_p.getD i 0) := by
  rw [flip_cost_min_max p not_p hlen hpos F hF]
  refine Finset.sum_congr rfl ?_
  intro i hi
  have hi' := Finset.mem_range.mp hi
  obtain ⟨hp, hnp⟩ := hpos i hi'
  have hv0 : i ∈ greedyV p not_p ↔ not_p.getD i 0 < p.getD i 0 := by
    rw [greedyV, Finset.mem_filter, Finset.mem_range]
    exact ⟨fun h => h.2, fun h => ⟨hi', h⟩⟩
  have hxor : i ∈ npSetXor (greedyV p not_p) F ↔
      ((not_p.getD i 0 < p.getD i 0) ↔ i ∉ F) := by
    rw [mem_npSetXor, hv0]
    tauto
  by_cases hiF : i ∈ F <;> by_cases hnlt : not_p.getD i 0 < p.getD i 0
  · rw [if_pos hiF, if_neg (by rw [hxor]; tauto), min_eq_right (le_of_lt hnlt)]
  · rw [if_pos hiF, if_pos (by rw [hxor]; tauto), min_eq_left (le_of_not_lt hnlt)]
  · rw [if_neg hiF, if_pos (by rw [hxor]; tauto), max_eq_left (le_of_lt hnlt)]
  · rw [if_neg hiF, if_neg (by rw [hxor]; tauto), max_eq_right (le_of_not_lt hnlt)]

/-! ## C4: the enumerator's score equals get_log_prob -/

theorem binarize_length (P : ℕ) (S : Finset ℕ) : (binarize P S).length = P := by
  simp [binarize]

theorem binarize_getD (P : ℕ) (S : Finset ℕ) (i : ℕ) (hi : i < P) :
    (binarize P S).getD i 0 = if i ∈ S then (1 : ℝ) else 0 := by
  have hr : (List.range P).getD i 0 = i := by
    rw [List.getD_eq_getElem _ _ (by simpa using hi)]
    exact List.getElem_range _ _
  rw [binarize, getD_map_of_lt _ _ i (by simpa using hi), hr]

theorem get_log_prob_binarize (acoustic language : List ℝ) (w : ℝ × ℝ) (S : Finset ℕ) :
    get_log_prob (binarize acoustic.length S) acoustic language w
      = ∑ i in Finset.range acoustic.length,
          if i ∈ S then Real.log ((combinedP w acoustic language).getD i 0)
          else Real.log ((combinedNotP w acoustic language).getD i 0) := by
  simp only [get_log_prob, binarize_length]
  refine Finset.sum_congr rfl ?_
  intro i hi
  have hi' := Finset.mem_range.mp hi
  rw [binarize_getD _ _ i hi']
  by_cases hiS : i ∈ S
  · simp [hiS]
  · simp [hiS]

theorem enumFromP_score (p not_p : List ℝ) (hlen : not_p.length = p.length)
    (hP : 1 ≤ p.length)
    (hpos : ∀ i < p.length, 0 < p.getD i 0 ∧ 0 < not_p.getD i 0) :
    ∀ y ∈ enumFromP p not_p,
      y.1 = ∑ i in Finset.range p.length,
        if i ∈ y.2 then Real.log (p.getD i 0) else Real.log (not_p.getD i 0) := by
  intro y hy
  have hLslen : (sortedPen p not_p).length = p.length := sortedPen_length p not_p hlen
  rw [enumFromP] at hy
  rcases List.mem_cons.mp hy with rfl | hy
  · have h := flip_cost_sample p not_p hlen hpos ∅ (Finset.empty_subset _)
    simpa [npSetXor_empty] using h
  · obtain ⟨z, hz, rfl⟩ := List.mem_map.mp hy
    have hq0 : ∀ e ∈ [(⟨(sortedPen p not_p).getD 0 0, 0, {0}⟩ : Entry)],
        EntryInv (sortedPen p not_p) e := by
      intro e he
      rcases List.mem_singleton.mp he with rfl
      refine ⟨Finset.singleton_nonempty 0, ?_, ?_⟩
      · rw [Finset.singleton_subset_iff, Finset.mem_range, hLslen]
        omega
      · rw [Finset.sum_singleton]
    obtain ⟨v, rfl, hvne, hvsub⟩ := drainF_inv _ _ _ _ hq0 z hz
    have hRlen : (argsort (penalties p not_p)).length = p.length := by
      rw [argsort_length, penalties_length p not_p hlen]
    have hvsub2 : v ⊆ Finset.range p.length := by
      rw [hLslen] at hvsub
      exact hvsub
    have hvsub' : v ⊆ Finset.range (argsort (penalties p not_p)).length := by
      rw [hRlen]
      exact hvsub2
    have hvsubL : v ⊆ Finset.range (penalties p not_p).length := by
      rw [penalties_length p not_p hlen]
      exact hvsub2
    have himg : idxImage (argsort (penalties p not_p)) v ⊆ Finset.range p.length := by
      have h := idxImage_subset_range (penalties p not_p) v hvsubL
      rwa [penalties_length p not_p hlen] at h
    have hsum := sortedPen_sum p not_p v hvsub'
    show greedyL p not_p - (∑ j in v, (sortedPen p not_p).getD j 0)
        = ∑ i in Finset.range p.length,
            if i ∈ npSetXor (greedyV p not_p) (idxImage (argsort (penalties p not_p)) v)
            then Real.log (p.getD i 0) else Real.log (not_p.getD i 0)
    rw [hsum]
    exact flip_cost_sample p not_p hlen hpos _ himg

/-- C4: every `(log_prob, sample)` pair yielded by `enumerate_samples` has
`log_prob` equal to the direct per-bit score
`get_log_prob(binary_sample, acoustic, language, weight)` — the enumerator's
incrementally maintained score coincides with the reference scorer of the
decode loop. -/
theorem enumerate_samples_score (acoustic language : List ℝ) (w : ℝ × ℝ)
    (hlen : language.length = acoustic.length) (hP : 1 ≤ acoustic.length)
    (hpos : ∀ i < acoustic.length,
        0 < (combinedP w acoustic language).getD i 0 ∧
        0 < (combinedNotP w acoustic language).getD i 0) :
    ∀ y ∈ enumerate_samples acoustic language w,
      y.1 = get_log_prob (binarize acoustic.length y.2) acoustic language w := by
  intro y hy
  have hPlen : (combinedP w acoustic language).length = acoustic.length :=
    combinedP_length w acoustic language hlen
  have hlen' : (combinedNotP w acoustic language).length
      = (combinedP w acoustic language).length := by
    rw [hPlen, combinedNotP_length w acoustic language hlen]
  rw [enumerate_samples] at hy
  have h := enumFromP_score _ _ hlen' (by rw [hPlen]; exact hP)
    (by rw [hPlen]; exact hpos) y hy
  rw [get_log_prob_binarize acoustic language w y.2, h, hPlen]

/-- Witness for `enumerate_samples_score` at a one-pitch input. -/
theorem enumerate_samples_score_wit :
    (([(1 : ℝ)/2] : List ℝ).length = ([(1 : ℝ)/2] : List ℝ).length ∧
     1 ≤ ([(1 : ℝ)/2] : List ℝ).length ∧
     (∀ i < ([(1 : ℝ)/2] : List ℝ).length,
        0 < (combinedP (1/2, 1/2) [1/2] [1/2]).getD i 0 ∧
        0 < (combinedNotP (1/2, 1/2) [1/2] [1/2]).getD i 0)) ∧
    ∀ y ∈ enumerate_samples [1/2] [1/2] (1/2, 1/2),
      y.1 = get_log_prob (binarize ([(1 : ℝ)/2] : List ℝ).length y.2)
        [1/2] [1/2] (1/2, 1/2) := by
  have hpos : ∀ i < ([(1 : ℝ)/2] : List ℝ).length,
      0 < (combinedP (1/2, 1/2) [1/2] [1/2]).getD i 0 ∧
      0 < (combinedNotP (1/2, 1/2) [1/2] [1/2]).getD i 0 := by
    intro i hi
    simp only [List.length_singleton] at hi
    interval_cases i
    constructor <;> norm_num [combinedP, combinedNotP]
  exact ⟨⟨rfl, by norm_num, hpos⟩,
    enumerate_samples_score [1/2] [1/2] (1/2, 1/2) rfl (by norm_num) hpos⟩

/-! ## C2: the drain is complete — it emits the whole flip tree -/

theorem popMin_eq_none (q : List Entry) (h : popMin q = none) : q = [] := by
  cases q with
  | nil => rfl
  | cons a as =>
    rw [popMin] at h
    split at h
    · simp at h
    · split_ifs at h

/-- The termination measure of the queue. -/
def qMeasure (P : ℕ) (q : List Entry) : ℕ :=
  (q.map (fun e => 3 ^ (P - e.v.sup id))).sum

theorem qMeasure_perm (P : ℕ) {q q' : List Entry} (h : q.Perm q') :
    qMeasure P q = qMeasure P q' :=
  (h.map _).sum_eq

theorem qMeasure_cons (P : ℕ) (e : Entry) (q : List Entry) :
    qMeasure P (e :: q) = 3 ^ (P - e.v.sup id) + qMeasure P q := by
  simp [qMeasure]

/-- The multiset of flip sets the loop emits from a single tree node `v`:
`v` itself plus, when `max v + 1 < P`, its two child subtrees. -/
def desc (P : ℕ) (v : Finset ℕ) : Multiset (Finset ℕ) :=
  if _h : v.sup id + 1 < P then
    {v} + desc P (insert (v.sup id + 1) v)
      + desc P ((insert (v.sup id + 1) v).erase (v.sup id))
  else {v}
termination_by P - v.sup id
decreasing_by
  · rw [sup_insert_succ]
    omega
  · rw [sup_erase_insert]
    omega

theorem drainF_complete (Ls : List ℝ) :
    ∀ (fuel num : ℕ) (q : List Entry), (∀ e ∈ q, EntryInv Ls e) →
      qMeasure Ls.length q ≤ fuel →
      (↑(drainF Ls fuel num q) : Multiset (ℝ × Finset ℕ))
        = ((q.map (fun e => desc Ls.length e.v)).sum).map
            (fun v => (∑ j in v, Ls.getD j 0, v)) := by
  intro fuel
  induction fuel with
  | zero =>
    intro num q hq hm
    cases q with
    | nil => simp [drainF_zero]
    | cons e q' =>
      exfalso
      rw [qMeasure_cons] at hm
      have h3 : 0 < 3 ^ (Ls.length - e.v.sup id) := pow_pos (by norm_num) _
      omega
  | succ fuel ih =>
    intro num q hq hm
    rcases hpop : popMin q with _ | ⟨e, q'⟩
    · have hq0 : q = [] := popMin_eq_none q hpop
      subst hq0
      rw [drainF_succ_none Ls fuel num [] hpop]
      simp
    · obtain ⟨hperm, _⟩ := popMin_spec q e q' hpop
      have he : EntryInv Ls e := hq e (hperm.mem_iff.mpr (List.mem_cons_self _ _))
      have hq' : ∀ x ∈ q', EntryInv Ls x := fun x hx =>
        hq x (hperm.mem_iff.mpr (List.mem_cons_of_mem e hx))
      have hqm : qMeasure Ls.length q
          = 3 ^ (Ls.length - e.v.sup id) + qMeasure Ls.length q' := by
        rw [qMeasure_perm Ls.length hperm, qMeasure_cons]
      have hdesc_perm : (q.map (fun x => desc Ls.length x.v)).sum
          = desc Ls.length e.v + (q'.map (fun x => desc Ls.length x.v)).sum := by
        have h := (hperm.map (fun x => desc Ls.length x.v)).sum_eq
        simpa using h
      have hmem : e.v.sup id ∈ insert (e.v.sup id + 1) e.v :=
        Finset.mem_insert_of_mem (sup_mem_of_nonempty he.1)
      have hxe := npSetXor_singleton_erase hmem
      by_cases hg : e.v.sup id + 1 < Ls.length
      · have hinv : ∀ x ∈ q' ++ [(⟨e.l + Ls.getD (e.v.sup id + 1) 0, num,
            insert (e.v.sup id + 1) e.v⟩ : Entry),
            ⟨e.l + Ls.getD (e.v.sup id + 1) 0 - Ls.getD (e.v.sup id) 0, num + 1,
             npSetXor (insert (e.v.sup id + 1) e.v) {e.v.sup id}⟩],
            EntryInv Ls x := by
          intro x hx
          rcases List.mem_append.mp hx with hx | hx
          · exact hq' x hx
          · rcases List.mem_cons.mp hx with rfl | hx
            · exact push_fst_inv Ls e he num hg
            · rcases List.mem_singleton.mp hx with rfl
              exact push_snd_inv Ls e he (num + 1) hg
        have hmeas' : qMeasure Ls.length (q' ++ [(⟨e.l + Ls.getD (e.v.sup id + 1) 0, num,
            insert (e.v.sup id + 1) e.v⟩ : Entry),
            ⟨e.l + Ls.getD (e.v.sup id + 1) 0 - Ls.getD (e.v.sup id) 0, num + 1,
             npSetXor (insert (e.v.sup id + 1) e.v) {e.v.sup id}⟩]) ≤ fuel := by
          have hq2 : qMeasure Ls.length (q' ++ [(⟨e.l + Ls.getD (e.v.sup id + 1) 0, num,
              insert (e.v.sup id + 1) e.v⟩ : Entry),
              ⟨e.l + Ls.getD (e.v.sup id + 1) 0 - Ls.getD (e.v.sup id) 0, num + 1,
               npSetXor (insert (e.v.sup id + 1) e.v) {e.v.sup id}⟩])
              = qMeasure Ls.length q'
                + (3 ^ (Ls.length - (e.v.sup id + 1))
                  + 3 ^ (Ls.length - (e.v.sup id + 1))) := by
            simp [qMeasure, hxe, sup_insert_succ, sup_erase_insert]
          have hPm : Ls.length - e.v.sup id = (Ls.length - (e.v.sup id + 1)) + 1 := by
            omega
          have hpow : (3 : ℕ) ^ (Ls.length - e.v.sup id)
              = 3 ^ (Ls.length - (e.v.sup id + 1)) * 3 := by
            rw [hPm, pow_succ]
          have hp1 : 0 < (3 : ℕ) ^ (Ls.length - (e.v.sup id + 1)) :=
            pow_pos (by norm_num) _
          omega
        rw [drainF_succ Ls fuel num q e q' hpop, if_pos hg, ← Multiset.cons_coe,
          ih (num + 2) _ hinv hmeas', hdesc_perm]
        rw [desc, dif_pos hg, hxe]
        simp only [List.map_append, List.sum_append, List.map_cons, List.map_nil,
          List.sum_cons, List.sum_nil, add_zero, Multiset.map_add,
          Multiset.map_singleton]
        rw [he.2.2]
        rw [← Multiset.singleton_add]
        abel
      · have hmeas' : qMeasure Ls.length q' ≤ fuel := by
          have h3 : 0 < (3 : ℕ) ^ (Ls.length - e.v.sup id) := pow_pos (by norm_num) _
          omega
        rw [drainF_succ Ls fuel num q e q' hpop, if_neg hg, ← Multiset.cons_coe,
          ih num q' hq' hmeas', hdesc_perm]
        rw [desc, dif_neg hg]
        simp only [Multiset.map_add, Multiset.map_singleton]
        rw [he.2.2]
        rw [← Multiset.singleton_add]

/-! ## The subtree of flip sets rooted at a node -/

/-- All subsets of `range P` that agree with `pre` below `m` and contain an
index `≥ m`: exactly the flip sets of the subtree rooted at `pre ∪ {m}`. -/
def Dset (P m : ℕ) (pre : Finset ℕ) : Finset (Finset ℕ) :=
  (Finset.range P).powerset.filter
    (fun S => S ∩ Finset.range m = pre ∧ ∃ x ∈ S, m ≤ x)

theorem mem_Dset {P m : ℕ} {pre S : Finset ℕ} :
    S ∈ Dset P m pre ↔
      S ⊆ Finset.range P ∧ S ∩ Finset.range m = pre ∧ ∃ x ∈ S, m ≤ x := by
  rw [Dset, Finset.mem_filter, Finset.mem_powerset]

theorem insert_inter_range (m : ℕ) (pre : Finset ℕ) (hpre : pre ⊆ Finset.range m) :
    (insert m pre) ∩ Finset.range m = pre := by
  ext y
  rw [Finset.mem_inter, Finset.mem_insert, Finset.mem_range]
  constructor
  · rintro ⟨rfl | hy, hlt⟩
    · omega
    · exact hy
  · intro hy
    exact ⟨Or.inr hy, Finset.mem_range.mp (hpre hy)⟩

theorem eq_insert_of_subset_range_succ {S : Finset ℕ} {m : ℕ}
    (hm : m ∈ S) (hS : ∀ x ∈ S, x < m + 1) :
    S = insert m (S ∩ Finset.range m) := by
  ext y
  rw [Finset.mem_insert, Finset.mem_inter, Finset.mem_range]
  constructor
  · intro hyS
    by_cases hy : y = m
    · exact Or.inl hy
    · refine Or.inr ⟨hyS, ?_⟩
      have := hS y hyS
      omega
  · rintro (rfl | ⟨hyS, _⟩)
    · exact hm
    · exact hyS

theorem inter_range_succ_of_mem {S : Finset ℕ} {m : ℕ} (hm : m ∈ S) :
    S ∩ Finset.range (m + 1) = insert m (S ∩ Finset.range m) := by
  ext y
  rw [Finset.mem_inter, Finset.mem_range, Finset.mem_insert, Finset.mem_inter,
    Finset.mem_range]
  constructor
  · rintro ⟨hyS, hlt⟩
    by_cases hy : y = m
    · exact Or.inl hy
    · exact Or.inr ⟨hyS, by omega⟩
  · rintro (rfl | ⟨hyS, hlt⟩)
    · exact ⟨hm, by omega⟩
    · exact ⟨hyS, by omega⟩

theorem inter_range_succ_of_not_mem {S : Finset ℕ} {m : ℕ} (hm : m ∉ S) :
    S ∩ Finset.range (m + 1) = S ∩ Finset.range m := by
  ext y
  rw [Finset.mem_inter, Finset.mem_range, Finset.mem_inter, Finset.mem_range]
  constructor
  · rintro ⟨hyS, hlt⟩
    refine ⟨hyS, ?_⟩
    rcases Nat.lt_succ_iff_lt_or_eq.mp hlt with h | rfl
    · exact h
    · exact absurd hyS hm
  · rintro ⟨hyS, hlt⟩
    exact ⟨hyS, by omega⟩

theorem inter_range_step (S : Finset ℕ) (m : ℕ) :
    (S ∩ Finset.range (m + 1)) ∩ Finset.range m = S ∩ Finset.range m := by
  ext y
  simp only [Finset.mem_inter, Finset.mem_range]
  constructor
  · rintro ⟨⟨h1, _⟩, h3⟩
    exact ⟨h1, h3⟩
  · rintro ⟨h1, h2⟩
    exact ⟨⟨h1, by omega⟩, h2⟩

theorem Dset_base (P m : ℕ) (pre : Finset ℕ) (hmP : m < P) (hg : ¬ m + 1 < P)
    (hpre : pre ⊆ Finset.range m) :
    Dset P m pre = {insert m pre} := by
  ext S
  rw [mem_Dset, Finset.mem_singleton]
  constructor
  · rintro ⟨hSP, hSm, x, hxS, hxm⟩
    have hxP : x < P := Finset.mem_range.mp (hSP hxS)
    have hxeq : x = m := by omega
    subst hxeq
    have hall : ∀ y ∈ S, y < x + 1 := by
      intro y hyS
      have := Finset.mem_range.mp (hSP hyS)
      omega
    rw [eq_insert_of_subset_range_succ hxS hall, hSm]
  · rintro rfl
    refine ⟨?_, insert_inter_range m pre hpre, m, Finset.mem_insert_self _ _, le_refl m⟩
    exact Finset.insert_subset (Finset.mem_range.mpr hmP)
      (hpre.trans (Finset.range_subset.mpr (by omega)))

theorem Dset_split (P m : ℕ) (pre : Finset ℕ) (hg : m + 1 < P)
    (hpre : pre ⊆ Finset.range m) :
    (Dset P m pre).val
      = (insert m pre) ::ₘ
        ((Dset P (m + 1) (insert m pre)).val + (Dset P (m + 1) pre).val) := by
  have hmpre : m ∉ pre := by
    intro h
    have := Finset.mem_range.mp (hpre h)
    omega
  have hAB : Disjoint (Dset P (m + 1) (insert m pre)) (Dset P (m + 1) pre) := by
    rw [Finset.disjoint_left]
    intro S hA hB
    rcases mem_Dset.mp hA with ⟨_, hA2, _⟩
    rcases mem_Dset.mp hB with ⟨_, hB2, _⟩
    apply hmpre
    have : insert m pre = pre := by rw [← hA2, hB2]
    rw [← this]
    exact Finset.mem_insert_self _ _
  have hvnotin : insert m pre ∉
      (Dset P (m + 1) (insert m pre)).disjUnion (Dset P (m + 1) pre) hAB := by
    rw [Finset.mem_disjUnion]
    rintro (hA | hB)
    · rcases mem_Dset.mp hA with ⟨_, _, x, hx, hxm⟩
      rcases Finset.mem_insert.mp hx with rfl | hx
      · omega
      · have := Finset.mem_range.mp (hpre hx)
        omega
    · rcases mem_Dset.mp hB with ⟨_, _, x, hx, hxm⟩
      rcases Finset.mem_insert.mp hx with rfl | hx
      · omega
      · have := Finset.mem_range.mp (hpre hx)
        omega
  have hsingle : Disjoint {insert m pre}
      ((Dset P (m + 1) (insert m pre)).disjUnion (Dset P (m + 1) pre) hAB) := by
    rw [Finset.disjoint_left]
    intro S hS
    rw [Finset.mem_singleton] at hS
    subst hS
    exact fun h => hvnotin h
  have heq : Dset P m pre
      = Finset.disjUnion {insert m pre}
          ((Dset P (m + 1) (insert m pre)).disjUnion (Dset P (m + 1) pre) hAB)
          hsingle := by
    ext S
    rw [Finset.mem_disjUnion, Finset.mem_singleton, Finset.mem_disjUnion, mem_Dset]
    constructor
    · rintro ⟨hSP, hSm, x, hxS, hxm⟩
      by_cases hhigh : ∃ z ∈ S, m + 1 ≤ z
      · by_cases hmS : m ∈ S
        · refine Or.inr (Or.inl (mem_Dset.mpr ⟨hSP, ?_, hhigh⟩))
          rw [inter_range_succ_of_mem hmS, hSm]
        · refine Or.inr (Or.inr (mem_Dset.mpr ⟨hSP, ?_, hhigh⟩))
          rw [inter_range_succ_of_not_mem hmS, hSm]
      · push_neg at hhigh
        left
        have hxeq : x = m := by
          have := hhigh x hxS
          omega
        subst hxeq
        rw [eq_insert_of_subset_range_succ hxS hhigh, hSm]
    · rintro (rfl | hA | hB)
      · exact ⟨Finset.insert_subset (Finset.mem_range.mpr (by omega))
            (hpre.trans (Finset.range_subset.mpr (by omega))),
          insert_inter_range m pre hpre,
          m, Finset.mem_insert_self _ _, le_refl m⟩
      · rcases mem_Dset.mp hA with ⟨hSP, hSm1, x, hx, hxm1⟩
        refine ⟨hSP, ?_, x, hx, by omega⟩
        have h := inter_range_step S m
        rw [hSm1] at h
        rw [← h, insert_inter_range m pre hpre]
      · rcases mem_Dset.mp hB with ⟨hSP, hSm1, x, hx, hxm1⟩
        refine ⟨hSP, ?_, x, hx, by omega⟩
        have h := inter_range_step S m
        rw [hSm1] at h
        rw [← h, Finset.inter_eq_left.mpr hpre]
  rw [heq]
  show ({insert m pre} : Finset (Finset ℕ)).val
      + ((Dset P (m + 1) (insert m pre)).val + (Dset P (m + 1) pre).val)
    = insert m pre ::ₘ ((Dset P (m + 1) (insert m pre)).val + (Dset P (m + 1) pre).val)
  rw [Finset.singleton_val, Multiset.singleton_add]

theorem desc_eq (P : ℕ) :
    ∀ (k : ℕ) (v : Finset ℕ), P - v.sup id ≤ k → v.Nonempty → v ⊆ Finset.range P →
      desc P v = (Dset P (v.sup id) (v ∩ Finset.range (v.sup id))).val := by
  intro k
  induction k with
  | zero =>
    intro v hk hne hsub
    exfalso
    have hm := sup_mem_of_nonempty hne
    have := Finset.mem_range.mp (hsub hm)
    omega
  | succ k ih =>
    intro v hk hne hsub
    have hmv : v.sup id ∈ v := sup_mem_of_nonempty hne
    have hmP : v.sup id < P := Finset.mem_range.mp (hsub hmv)
    have hpre_sub : v ∩ Finset.range (v.sup id) ⊆ Finset.range (v.sup id) :=
      Finset.inter_subset_right
    have hv_ins : insert (v.sup id) (v ∩ Finset.range (v.sup id)) = v := by
      symm
      apply eq_insert_of_subset_range_succ hmv
      intro x hx
      have := le_sup_of_mem hx
      omega
    by_cases hg : v.sup id + 1 < P
    · rw [desc, dif_pos hg]
      have hc1 : (insert (v.sup id + 1) v).sup id = v.sup id + 1 := sup_insert_succ v
      have hc2 : ((insert (v.sup id + 1) v).erase (v.sup id)).sup id = v.sup id + 1 :=
        sup_erase_insert v
      have hne1 : (insert (v.sup id + 1) v).Nonempty := Finset.insert_nonempty _ _
      have hsub1 : insert (v.sup id + 1) v ⊆ Finset.range P :=
        Finset.insert_subset (Finset.mem_range.mpr hg) hsub
      have hne2 : ((insert (v.sup id + 1) v).erase (v.sup id)).Nonempty :=
        ⟨v.sup id + 1, Finset.mem_erase.mpr ⟨by omega, Finset.mem_insert_self _ _⟩⟩
      have hsub2 : (insert (v.sup id + 1) v).erase (v.sup id) ⊆ Finset.range P :=
        (Finset.erase_subset _ _).trans hsub1
      rw [ih _ (by rw [hc1]; omega) hne1 hsub1,
        ih _ (by rw [hc2]; omega) hne2 hsub2, hc1, hc2]
      have hvsub1 : v ⊆ Finset.range (v.sup id + 1) := by
        intro x hx
        rw [Finset.mem_range]
        have := le_sup_of_mem hx
        omega
      have hpre1 : insert (v.sup id + 1) v ∩ Finset.range (v.sup id + 1) = v := by
        rw [Finset.insert_inter_of_not_mem (by simp), Finset.inter_eq_left.mpr hvsub1]
      have hpre2 : (insert (v.sup id + 1) v).erase (v.sup id)
            ∩ Finset.range (v.sup id + 1)
          = v ∩ Finset.range (v.sup id) := by
        ext y
        simp only [Finset.mem_inter, Finset.mem_erase, Finset.mem_insert,
          Finset.mem_range]
        constructor
        · rintro ⟨⟨hne', rfl | hyv⟩, hlt⟩
          · omega
          · have := le_sup_of_mem hyv
            exact ⟨hyv, by omega⟩
        · rintro ⟨hyv, hlt⟩
          exact ⟨⟨by omega, Or.inr hyv⟩, by omega⟩
      rw [hpre1, hpre2,
        Dset_split P (v.sup id) (v ∩ Finset.range (v.sup id)) hg hpre_sub, hv_ins,
        Multiset.singleton_add, Multiset.cons_add]
    · rw [desc, dif_neg hg,
        Dset_base P (v.sup id) (v ∩ Finset.range (v.sup id)) hmP hg hpre_sub, hv_ins]
      rfl

theorem Dset_zero (P : ℕ) :
    Dset P 0 ∅ = (Finset.range P).powerset.erase ∅ := by
  ext S
  rw [mem_Dset, Finset.mem_erase, Finset.mem_powerset]
  constructor
  · rintro ⟨hSP, _, x, hxS, _⟩
    refine ⟨?_, hSP⟩
    intro h0
    subst h0
    simp at hxS
  · rintro ⟨hne, hSP⟩
    refine ⟨hSP, by simp, ?_⟩
    obtain ⟨x, hx⟩ := Finset.nonempty_iff_ne_empty.mpr hne
    exact ⟨x, hx, Nat.zero_le x⟩

theorem desc_root (P : ℕ) (hP : 1 ≤ P) :
    desc P {0} = ((Finset.range P).powerset.erase ∅).val := by
  have hsup : ({0} : Finset ℕ).sup id = 0 := by simp
  have h := desc_eq P P {0} (Nat.sub_le _ _) (Finset.singleton_nonempty 0)
    (by rw [Finset.singleton_subset_iff, Finset.mem_range]; omega)
  rw [h, hsup]
  have hpre0 : ({0} : Finset ℕ) ∩ Finset.range 0 = ∅ := by simp
  rw [hpre0, Dset_zero]

/-- The full drain of `enumerate_samples`, as a multiset: one yield for every
subset of the pitch range, scored by its accumulated flip penalty. -/
theorem enumFromP_multiset (p not_p : List ℝ) (hlen : not_p.length = p.length)
    (hP : 1 ≤ p.length) :
    (↑(enumFromP p not_p) : Multiset (ℝ × Finset ℕ))
      = (Finset.range p.length).powerset.val.map
          (fun v => (greedyL p not_p - ∑ j in v, (sortedPen p not_p).getD j 0,
            npSetXor (greedyV p not_p) (idxImage (argsort (penalties p not_p)) v))) := by
  have hLslen : (sortedPen p not_p).length = p.length := sortedPen_length p not_p hlen
  have hq0 : ∀ e ∈ [(⟨(sortedPen p not_p).getD 0 0, 0, {0}⟩ : Entry)],
      EntryInv (sortedPen p not_p) e := by
    intro e he
    rcases List.mem_singleton.mp he with rfl
    exact ⟨Finset.singleton_nonempty 0,
      by rw [Finset.singleton_subset_iff, Finset.mem_range, hLslen]; omega,
      by rw [Finset.sum_singleton]⟩
  have hmeas : qMeasure (sortedPen p not_p).length
      [⟨(sortedPen p not_p).getD 0 0, 0, {0}⟩] ≤ 3 ^ p.length := by
    have hsup0 : ({0} : Finset ℕ).sup id = 0 := by simp
    simp [qMeasure, hsup0, hLslen]
  have hcomp := drainF_complete (sortedPen p not_p) (3 ^ p.length) 1 _ hq0 hmeas
  simp only [List.map_cons, List.map_nil, List.sum_cons, List.sum_nil, add_zero] at hcomp
  rw [hLslen, desc_root p.length hP] at hcomp
  rw [enumFromP, ← Multiset.cons_coe, ← Multiset.map_coe, hcomp, Multiset.map_map]
  have hcons : (Finset.range p.length).powerset.val
      = (∅ : Finset ℕ) ::ₘ ((Finset.range p.length).powerset.erase ∅).val := by
    rw [Finset.erase_val]
    exact (Multiset.cons_erase (Finset.mem_val.mpr (Finset.empty_mem_powerset _))).symm
  rw [hcons, Multiset.map_cons]
  congr 1
  rw [Finset.sum_empty, sub_zero, idxImage, Finset.image_empty, npSetXor_empty]

/-- C2: one call to `enumerate_samples` yields no duplicate samples; fully
drained it yields exactly `2 ^ P` elements; every binary assignment of the `P`
pitches appears; and, in exact arithmetic, the probabilities `exp log_prob`
of all yielded elements sum to 1. -/
theorem enumerate_samples_exact (acoustic language : List ℝ) (w : ℝ × ℝ)
    (hlen : language.length = acoustic.length) (hP : 1 ≤ acoustic.length)
    (hw : w.1 + w.2 = 1)
    (hpos : ∀ i < acoustic.length,
        0 < (combinedP w acoustic language).getD i 0 ∧
        0 < (combinedNotP w acoustic language).getD i 0) :
    ((enumerate_samples acoustic language w).map Prod.snd).Nodup ∧
    (enumerate_samples acoustic language w).length = 2 ^ acoustic.length ∧
    (∀ S : Finset ℕ, S ⊆ Finset.range acoustic.length →
        S ∈ (enumerate_samples acoustic language w).map Prod.snd) ∧
    ((enumerate_samples acoustic language w).map (fun y => Real.exp y.1)).sum = 1 := by
  set p := combinedP w acoustic language with hp_def
  set np := combinedNotP w acoustic language with hnp_def
  have hPl : p.length = acoustic.length := combinedP_length w acoustic language hlen
  have hlen' : np.length = p.length := by
    rw [hPl, hnp_def]
    exact combinedNotP_length w acoustic language hlen
  have hP' : 1 ≤ p.length := by rw [hPl]; exact hP
  have hpos' : ∀ i < p.length, 0 < p.getD i 0 ∧ 0 < np.getD i 0 := by
    intro i hi
    rw [hPl] at hi
    exact hpos i hi
  have hRlenP : (penalties p np).length = p.length := penalties_length p np hlen'
  have hM : (↑(enumerate_samples acoustic language w) : Multiset (ℝ × Finset ℕ))
      = (Finset.range p.length).powerset.val.map
          (fun v => (greedyL p np - ∑ j in v, (sortedPen p np).getD j 0,
            npSetXor (greedyV p np) (idxImage (argsort (penalties p np)) v))) := by
    rw [enumerate_samples]
    exact enumFromP_multiset p np hlen' hP'
  have hsnd : (↑((enumerate_samples acoustic language w).map Prod.snd)
        : Multiset (Finset ℕ))
      = (Finset.range p.length).powerset.val.map
          (fun v => npSetXor (greedyV p np) (idxImage (argsort (penalties p np)) v)) := by
    rw [← Multiset.map_coe, hM, Multiset.map_map]
    rfl
  have hinj : ∀ v1 ∈ (Finset.range p.length).powerset.val,
      ∀ v2 ∈ (Finset.range p.length).powerset.val,
      npSetXor (greedyV p np) (idxImage (argsort (penalties p np)) v1)
        = npSetXor (greedyV p np) (idxImage (argsort (penalties p np)) v2) → v1 = v2 := by
    intro v1 h1 v2 h2 he
    refine idxImage_inj (penalties p np) ?_ ?_ (npSetXor_left_cancel he)
    · rw [hRlenP]
      exact Finset.mem_powerset.mp (Finset.mem_val.mp h1)
    · rw [hRlenP]
      exact Finset.mem_powerset.mp (Finset.mem_val.mp h2)
  refine ⟨?_, ?_, ?_, ?_⟩
  · -- no duplicates
    rw [← Multiset.coe_nodup, hsnd]
    exact Multiset.Nodup.map_on hinj (Finset.range p.length).powerset.nodup
  · -- length
    have h := congrArg Multiset.card hM
    rw [Multiset.coe_card, Multiset.card_map] at h
    rw [h]
    have hc : Multiset.card (Finset.range p.length).powerset.val
        = (Finset.range p.length).powerset.card := rfl
    rw [hc, Finset.card_powerset, Finset.card_range, hPl]
  · -- every subset appears
    have hsub_fn : ∀ v ∈ (Finset.range p.length).powerset,
        npSetXor (greedyV p np) (idxImage (argsort (penalties p np)) v)
          ∈ (Finset.range p.length).powerset := by
      intro v hv
      rw [Finset.mem_powerset] at hv ⊢
      intro x hx
      rcases (mem_npSetXor.mp hx) with ⟨hx1 | hx2, _⟩
      · rw [greedyV, Finset.mem_filter] at hx1
        exact hx1.1
      · have himg := idxImage_subset_range (penalties p np) v (by rw [hRlenP]; exact hv)
        rw [hRlenP] at himg
        exact himg hx2
    have himage : (Finset.range p.length).powerset.image
        (fun v => npSetXor (greedyV p np) (idxImage (argsort (penalties p np)) v))
        = (Finset.range p.length).powerset := by
      apply Finset.eq_of_subset_of_card_le
      · intro S hS
        obtain ⟨v, hv, rfl⟩ := Finset.mem_image.mp hS
        exact hsub_fn v hv
      · refine le_of_eq (Finset.card_image_of_injOn ?_).symm
        intro v1 h1 v2 h2 he
        exact hinj v1 (Finset.mem_val.mpr (Finset.mem_coe.mp h1))
          v2 (Finset.mem_val.mpr (Finset.mem_coe.mp h2)) he
    intro S hS
    rw [← Multiset.mem_coe, hsnd, Multiset.mem_map]
    have hS' : S ∈ (Finset.range p.length).powerset := by
      rw [Finset.mem_powerset, hPl]
      exact hS
    rw [← himage] at hS'
    obtain ⟨v, hv, he⟩ := Finset.mem_image.mp hS'
    exact ⟨v, Finset.mem_val.mpr hv, he⟩
  · -- probabilities sum to 1
    have h0 : ((enumerate_samples acoustic language w).map (fun y => Real.exp y.1)).sum
        = ∑ v in (Finset.range p.length).powerset,
            Real.exp (greedyL p np - ∑ j in v, (sortedPen p np).getD j 0) := by
      rw [← Multiset.sum_coe, ← Multiset.map_coe, hM, Multiset.map_map,
        Finset.sum_eq_multiset_sum]
      rfl
    rw [h0]
    have hterm : ∀ v ∈ (Finset.range p.length).powerset,
        Real.exp (greedyL p np - ∑ j in v, (sortedPen p np).getD j 0)
          = ∏ i in Finset.range p.length,
              (if i ∈ idxImage (argsort (penalties p np)) v
               then min (p.getD i 0) (np.getD i 0)
               else max (p.getD i 0) (np.getD i 0)) := by
      intro v hv
      rw [Finset.mem_powerset] at hv
      have hv' : v ⊆ Finset.range (argsort (penalties p np)).length := by
        rw [argsort_length, hRlenP]
        exact hv
      have himgsub : idxImage (argsort (penalties p np)) v ⊆ Finset.range p.length := by
        have h := idxImage_subset_range (penalties p np) v (by rw [hRlenP]; exact hv)
        rwa [hRlenP] at h
      rw [sortedPen_sum p np v hv', flip_cost_min_max p np hlen' hpos' _ himgsub,
        Real.exp_sum]
      refine Finset.prod_congr rfl ?_
      intro i hi
      obtain ⟨hpi, hnpi⟩ := hpos' i (Finset.mem_range.mp hi)
      by_cases hiF : i ∈ idxImage (argsort (penalties p np)) v
      · rw [if_pos hiF, if_pos hiF, Real.exp_log (lt_min hpi hnpi)]
      · rw [if_neg hiF, if_neg hiF, Real.exp_log (lt_max_iff.mpr (Or.inl hpi))]
    rw [Finset.sum_congr rfl hterm]
    have himg_inj : ∀ v1 ∈ (Finset.range p.length).powerset,
        ∀ v2 ∈ (Finset.range p.length).powerset,
        idxImage (argsort (penalties p np)) v1 = idxImage (argsort (penalties p np)) v2
          → v1 = v2 := by
      intro v1 h1 v2 h2 he
      exact idxImage_inj (penalties p np)
        (by rw [hRlenP]; exact Finset.mem_powerset.mp h1)
        (by rw [hRlenP]; exact Finset.mem_powerset.mp h2) he
    have himg_image : (Finset.range p.length).powerset.image
        (fun v => idxImage (argsort (penalties p np)) v)
        = (Finset.range p.length).powerset := by
      apply Finset.eq_of_subset_of_card_le
      · intro S hS
        obtain ⟨v, hv, rfl⟩ := Finset.mem_image.mp hS
        rw [Finset.mem_powerset]
        have h := idxImage_subset_range (penalties p np) v
          (by rw [hRlenP]; exact Finset.mem_powerset.mp hv)
        rwa [hRlenP] at h
      · refine le_of_eq (Finset.card_image_of_injOn ?_).symm
        intro v1 h1 v2 h2 he
        exact himg_inj v1 (Finset.mem_coe.mp h1) v2 (Finset.mem_coe.mp h2) he
    have hreindex : (∑ v in (Finset.range p.length).powerset,
        ∏ i in Finset.range p.length,
          (if i ∈ idxImage (argsort (penalties p np)) v
           then min (p.getD i 0) (np.getD i 0) else max (p.getD i 0) (np.getD i 0)))
        = ∑ S in (Finset.range p.length).powerset,
            ∏ i in Finset.range p.length,
              (if i ∈ S then min (p.getD i 0) (np.getD i 0)
               else max (p.getD i 0) (np.getD i 0)) := by
      conv_rhs => rw [← himg_image]
      rw [Finset.sum_image himg_inj]
    rw [hreindex]
    have hsplit : ∀ S ∈ (Finset.range p.length).powerset,
        (∏ i in Finset.range p.length,
          (if i ∈ S then min (p.getD i 0) (np.getD i 0)
           else max (p.getD i 0) (np.getD i 0)))
        = (∏ i in S, min (p.getD i 0) (np.getD i 0))
            * ∏ i in Finset.range p.length \ S, max (p.getD i 0) (np.getD i 0) := by
      intro S hS
      rw [Finset.mem_powerset] at hS
      conv_lhs => rw [← Finset.union_sdiff_of_subset hS]
      rw [Finset.prod_union Finset.disjoint_sdiff]
      congr 1
      · exact Finset.prod_congr rfl (fun i hi => if_pos hi)
      · exact Finset.prod_congr rfl (fun i hi => if_neg (Finset.mem_sdiff.mp hi).2)
    rw [Finset.sum_congr rfl hsplit, ← Finset.prod_add]
    refine Finset.prod_eq_one ?_
    intro i hi
    have hia : i < acoustic.length := by
      rw [← hPl]
      exact Finset.mem_range.mp hi
    have hil : i < language.length := by omega
    obtain ⟨hc1, hc2⟩ := combined_prob_unclamped w acoustic language i hia hil
    rw [min_add_max]
    rw [← hp_def] at hc1
    rw [← hnp_def] at hc2
    rw [hc1, hc2]
    have hr : w.1 * acoustic.getD i 0 + w.2 * language.getD i 0
        + (w.1 * (1 - acoustic.getD i 0) + w.2 * (1 - language.getD i 0))
        = w.1 + w.2 := by ring
    rw [hr, hw]

/-- Witness for `enumerate_samples_exact` at a one-pitch input. -/
theorem enumerate_samples_exact_wit :
    (([(1 : ℝ)/2] : List ℝ).length = ([(1 : ℝ)/2] : List ℝ).length ∧
     1 ≤ ([(1 : ℝ)/2] : List ℝ).length ∧
     ((1 : ℝ)/2 + 1/2 = 1) ∧
     (∀ i < ([(1 : ℝ)/2] : List ℝ).length,
        0 < (combinedP (1/2, 1/2) [1/2] [1/2]).getD i 0 ∧
        0 < (combinedNotP (1/2, 1/2) [1/2] [1/2]).getD i 0)) ∧
    (((enumerate_samples [1/2] [1/2] (1/2, 1/2)).map Prod.snd).Nodup ∧
     (enumerate_samples [1/2] [1/2] (1/2, 1/2)).length
        = 2 ^ ([(1 : ℝ)/2] : List ℝ).length ∧
     (∀ S : Finset ℕ, S ⊆ Finset.range ([(1 : ℝ)/2] : List ℝ).length →
        S ∈ (enumerate_samples [1/2] [1/2] (1/2, 1/2)).map Prod.snd) ∧
     ((enumerate_samples [1/2] [1/2] (1/2, 1/2)).map (fun y => Real.exp y.1)).sum
        = 1) := by
  have hpos : ∀ i < ([(1 : ℝ)/2] : List ℝ).length,
      0 < (combinedP (1/2, 1/2) [1/2] [1/2]).getD i 0 ∧
      0 < (combinedNotP (1/2, 1/2) [1/2] [1/2]).getD i 0 := by
    intro i hi
    simp only [List.length_singleton] at hi
    interval_cases i
    constructor <;> norm_num [combinedP, combinedNotP]
  exact ⟨⟨rfl, by norm_num, by norm_num, hpos⟩,
    enumerate_samples_exact [1/2] [1/2] (1/2, 1/2) rfl (by norm_num) (by norm_num) hpos⟩

end MLM
